import Mathlib

/-!
Verification of the music queue engine core (C sources: manager.c,
doubly_linked_list.c, max_heap.c, stack.c, queue.c, trie.c).

The C data structures are shallowly embedded:
* the max heap's backing array becomes a `List HeapNode` (the live prefix);
  `float` priorities are modelled as `Int` — the manager only ever stores
  `(float)(likes * 2 + play_count)`, an exactly representable integer, and the
  heap compares priorities with plain `>`;
* the circular doubly linked list is modelled at the pointer level: an arena
  `List (Option DLLNode)` indexed by allocation address, with `next`/`prev`
  stored as addresses, so pointer-aliasing behaviour of the C code is kept;
* C strings become `List Nat` (byte sequences); `tolower` only folds A–Z,
  matching the C library's behaviour on the ASCII range;
* the trie is a 26-ary tree with children indexed by `Fin 26`;
* the undo/redo stacks become `List Operation` (top = head);
* `bool` results and out-parameters become product returns.
-/

/-! ## Heap nodes and list-array helpers -/

/-- A heap entry: `(song_id, priority)`, as in `max_heap.c`. -/
structure HeapNode where
  song_id : Int
  priority : Int
deriving DecidableEq, Repr

/-- Read of `nodes[i]`; out-of-range reads give the C sentinel `{-1, -1}`. -/
def hget (ns : List HeapNode) (i : Nat) : HeapNode :=
  ns.getD i ⟨-1, -1⟩

/-- Priority at index `i`. -/
def pgetL (ns : List HeapNode) (i : Nat) : Int :=
  (hget ns i).priority

/-- `swap_nodes(&nodes[i], &nodes[j])`: read both entries, then write both. -/
def swapL (ns : List HeapNode) (i j : Nat) : List HeapNode :=
  (ns.set i (hget ns j)).set j (hget ns i)

/-- `heapify_up` from `max_heap.c`, with an explicit recursion bound: the
    sift moves to the strictly smaller parent index each step, so a bound of
    `i` steps never binds — it only makes the recursion structural. -/
def heapifyUpF : Nat → List HeapNode → Nat → List HeapNode
  | 0, ns, _ => ns
  | fuel + 1, ns, i =>
      if i = 0 then ns
      else if pgetL ns ((i - 1) / 2) < pgetL ns i then
        heapifyUpF fuel (swapL ns i ((i - 1) / 2)) ((i - 1) / 2)
      else ns

/-- `heapify_up` / `heapifyUp`: sift the entry at `i` up while it is strictly
    greater than its parent. -/
def heapifyUp (ns : List HeapNode) (i : Nat) : List HeapNode :=
  heapifyUpF i ns i

/-- The index the C `heapifyDown` body selects as `largest`: the first `if`
    prefers the left child when strictly greater, the second the right child. -/
def chooseLargest (ns : List HeapNode) (i : Nat) : Nat :=
  let l1 := if 2 * i + 1 < ns.length ∧ pgetL ns i < pgetL ns (2 * i + 1) then 2 * i + 1 else i
  if 2 * i + 2 < ns.length ∧ pgetL ns l1 < pgetL ns (2 * i + 2) then 2 * i + 2 else l1

/-- `heapify_down` from `max_heap.c`, with an explicit recursion bound: the
    sift moves to a strictly larger in-bounds index each step, so a bound of
    `ns.length - i` steps never binds. -/
def heapifyDownF : Nat → List HeapNode → Nat → List HeapNode
  | 0, ns, _ => ns
  | fuel + 1, ns, i =>
      if chooseLargest ns i = i then ns
      else heapifyDownF fuel (swapL ns i (chooseLargest ns i)) (chooseLargest ns i)

/-- `heapifyDown`: swap with the largest child until the entry dominates both
    children. -/
def heapifyDown (ns : List HeapNode) (i : Nat) : List HeapNode :=
  heapifyDownF ns.length ns i

/-- The heap object: live entries plus the fixed capacity (`MaxHeap`). -/
structure MaxHeap where
  nodes : List HeapNode
  capacity : Nat
deriving DecidableEq, Repr

/-- `insertHeap`: fails when full, otherwise appends and sifts up. -/
def insertHeap (h : MaxHeap) (song_id : Int) (priority : Int) : Bool × MaxHeap :=
  if h.nodes.length ≥ h.capacity then (false, h)
  else (true, { h with nodes := heapifyUp (h.nodes ++ [⟨song_id, priority⟩]) h.nodes.length })

/-- `extractMax`: returns the root (sentinel `{-1,-1}` on empty), moves the
    last entry to the root, shrinks, and sifts down when nonempty. -/
def extractMax (h : MaxHeap) : HeapNode × MaxHeap :=
  if h.nodes.length = 0 then (⟨-1, -1⟩, h)
  else
    let mx := hget h.nodes 0
    let ns1 := (h.nodes.set 0 (hget h.nodes (h.nodes.length - 1))).dropLast
    let ns2 := if ns1.length > 0 then heapifyDown ns1 0 else ns1
    (mx, { h with nodes := ns2 })

/-- `find_song_index`: first index holding `song_id`, `none` for C's `-1`. -/
def findSongIdx : List HeapNode → Int → Option Nat
  | [], _ => none
  | n :: rest, id => if n.song_id = id then some 0 else (findSongIdx rest id).map (· + 1)

/-- `heap_update_priority` from `max_heap.c` (second half, the build in use):
    absent song ids are inserted; present ones get the new priority written in
    place and are sifted up on a strict increase, down otherwise. -/
def heap_update_priority (h : MaxHeap) (song_id : Int) (new_priority : Int) :
    Bool × MaxHeap :=
  match findSongIdx h.nodes song_id with
  | none => insertHeap h song_id new_priority
  | some i =>
      let old := pgetL h.nodes i
      let ns := h.nodes.set i ⟨(hget h.nodes i).song_id, new_priority⟩
      if old < new_priority then (true, { h with nodes := heapifyUp ns i })
      else (true, { h with nodes := heapifyDown ns i })

/-- The max-heap property I3: every non-root entry is at most its parent. -/
def heapProp (ns : List HeapNode) : Prop :=
  ∀ c, c < ns.length → 0 < c → pgetL ns c ≤ pgetL ns ((c - 1) / 2)

instance heapProp_decidable (ns : List HeapNode) : Decidable (heapProp ns) :=
  Nat.decidableBallLT ns.length fun c _ => 0 < c → pgetL ns c ≤ pgetL ns ((c - 1) / 2)

/-! ## Circular doubly linked list, at the pointer level

A node address is its index in the arena `mem`; `none` marks a freed slot.
Reads of freed or unallocated slots (undefined behaviour in C) are
determinised to the junk node `⟨0, 0, 0⟩`. -/

/-- `DLLNode`: `song_id` plus `next`/`prev` pointers stored as addresses. -/
structure DLLNode where
  song_id : Int
  next : Nat
  prev : Nat
deriving DecidableEq, Repr

/-- `DoublyLinkedList`: arena plus `head`, `tail`, `current` and `size`. -/
structure DLL where
  mem : List (Option DLLNode)
  head : Option Nat
  tail : Option Nat
  current : Option Nat
  size : Nat
deriving DecidableEq, Repr

/-- Dereference address `a` (junk for freed or unallocated slots). -/
def getNode (l : DLL) (a : Nat) : DLLNode :=
  (l.mem.getD a none).getD ⟨0, 0, 0⟩

/-- `node->next` of the node at address `a`. -/
def gnext (l : DLL) (a : Nat) : Nat :=
  (getNode l a).next

/-- Write `a->next = v`. -/
def setNext (l : DLL) (a v : Nat) : DLL :=
  { l with mem := l.mem.set a (some { getNode l a with next := v }) }

/-- Write `a->prev = v`. -/
def setPrev (l : DLL) (a v : Nat) : DLL :=
  { l with mem := l.mem.set a (some { getNode l a with prev := v }) }

/-- `dll_create()`. -/
def dllCreate : DLL :=
  { mem := [], head := none, tail := none, current := none, size := 0 }

/-- `dll_insert_end`: first node becomes head, tail and current and links to
    itself; otherwise the node is spliced after `tail` and `tail` advances.
    Allocation always succeeds in the model, so the address is returned. -/
def dll_insert_end (l : DLL) (id : Int) : Nat × DLL :=
  let a := l.mem.length
  match l.head with
  | none =>
      (a, { l with
              mem := l.mem ++ [some ⟨id, a, a⟩]
              head := some a
              tail := some a
              current := some a
              size := l.size + 1 })
  | some h =>
      let t := l.tail.getD 0
      let l1 := { l with mem := l.mem ++ [some ⟨id, h, t⟩] }
      let l2 := setNext l1 t a
      let l3 := setPrev l2 h a
      (a, { l3 with tail := some a, size := l.size + 1 })

/-- `dll_remove` on the node at address `a`; mirrors the C write order and
    the head/tail/current fix-ups. -/
def dll_remove (l : DLL) (a : Nat) : Bool × DLL :=
  if l.size = 0 then (false, l)
  else if l.size = 1 then
    (true, { l with
               mem := l.mem.set a none
               head := none
               tail := none
               current := none
               size := l.size - 1 })
  else
    let n := getNode l a
    let l1 := setNext l n.prev n.next
    let l2 := setPrev l1 n.next n.prev
    let l3 := if l2.head = some a then { l2 with head := some n.next } else l2
    let l4 := if l3.tail = some a then { l3 with tail := some n.prev } else l3
    let l5 := if l4.current = some a then { l4 with current := some n.next } else l4
    (true, { l5 with mem := l5.mem.set a none, size := l.size - 1 })

/-- `dll_move_up` on the node at address `a`: the exact six relink writes of
    the C code (including their aliasing behaviour), then the head/tail
    fix-ups. No-op returning false when `size < 2`. -/
def dll_move_up (l : DLL) (a : Nat) : Bool × DLL :=
  if l.size < 2 then (false, l)
  else
    let prev := (getNode l a).prev
    let p_prev := (getNode l prev).prev
    let n_next := (getNode l a).next
    let l1 := setNext l p_prev a
    let l2 := setPrev l1 a p_prev
    let l3 := setNext l2 a prev
    let l4 := setPrev l3 prev a
    let l5 := setNext l4 prev n_next
    let l6 := setPrev l5 n_next prev
    let l7 := if l6.head = some prev then { l6 with head := some a }
              else if l6.head = some a then { l6 with head := some prev } else l6
    let l8 := if l7.tail = some a then { l7 with tail := some prev }
              else if l7.tail = some prev then { l7 with tail := some a } else l7
    (true, l8)

/-- `dll_move_down`: delegates to `dll_move_up(node->next)`. -/
def dll_move_down (l : DLL) (a : Nat) : Bool × DLL :=
  if l.size < 2 then (false, l)
  else dll_move_up l (getNode l a).next

/-- The C `dll_find_by_id` scan loop (`fuel` iterations from address `a`). -/
def dll_find_loop (l : DLL) (id : Int) : Nat → Nat → Option Nat
  | _, 0 => none
  | a, fuel + 1 =>
      if (getNode l a).song_id = id then some a
      else dll_find_loop l id (gnext l a) fuel

/-- `dll_find_by_id`: linear scan of `size` steps from `head`. -/
def dll_find_by_id (l : DLL) (id : Int) : Option Nat :=
  if l.size = 0 then none
  else match l.head with
       | none => none
       | some h => dll_find_loop l id h l.size

/-- `dll_get_size`. -/
def dll_get_size (l : DLL) : Nat := l.size

/-- Address reached from `x` by following `next` exactly `k` times. -/
def nthNext (l : DLL) (x : Nat) : Nat → Nat
  | 0 => x
  | k + 1 => gnext l (nthNext l x k)

/-- The first `n` addresses visited from `x` by following `next`. -/
def traverseAddrs (l : DLL) (x : Nat) (n : Nat) : List Nat :=
  (List.range n).map (nthNext l x)

/-- The queue as the ordered list of song ids starting at `head` — the view
    printed by `dll_display` and exposed as `queue_snapshot`. -/
def snapshot (l : DLL) : List Int :=
  match l.head with
  | none => []
  | some h => (traverseAddrs l h l.size).map fun a => (getNode l a).song_id

/-- Invariants I1/I2 of the queue, decidably: either the list is empty with
    all three pointers null, or the `size` addresses traversed from `head`
    are distinct live nodes forming a cycle consistent in both directions,
    with `tail` the last of them and `current` among them. -/
def wellFormedB (l : DLL) : Bool :=
  match l.head, l.tail, l.current with
  | none, none, none => l.size == 0
  | some h, some t, some c =>
      let as := traverseAddrs l h l.size
      decide (0 < l.size) &&
      as.all (fun a => (l.mem.getD a none).isSome) &&
      decide as.Nodup &&
      (List.range l.size).all (fun i =>
        gnext l (as.getD i 0) == as.getD ((i + 1) % l.size) 0 &&
        (getNode l (as.getD ((i + 1) % l.size) 0)).prev == as.getD i 0) &&
      (t == as.getD (l.size - 1) 0) &&
      as.contains c
  | _, _, _ => false

/-! ## Search trie -/

/-- A trie node: end marker, accumulated song ids, and 26 children. -/
inductive TrieNode where
  | node (isEnd : Bool) (song_ids : List Int) (children : Fin 26 → Option TrieNode)

/-- `trie_create_node()` / `trie_create()`. -/
def trieEmpty : TrieNode :=
  .node false [] fun _ => none

/-- C `tolower` on a byte: folds only A–Z (ASCII). -/
def tolowerByte (c : Nat) : Nat :=
  if 65 ≤ c ∧ c ≤ 90 then c + 32 else c

/-- The trie edge a byte maps to: `some` of its letter index when the folded
    byte is in a–z, `none` when the byte is skipped. -/
def byteIdx (c : Nat) : Option (Fin 26) :=
  let lc := tolowerByte c
  if h : 97 ≤ lc ∧ lc ≤ 122 then some ⟨lc - 97, by omega⟩ else none

/-- The case-folded, alphabetic-filtered form of a key. -/
def foldKey (key : List Nat) : List (Fin 26) :=
  key.filterMap byteIdx

/-- `trie_insert`: walk/create the path of folded letters (skipping other
    bytes) and prepend `song_id` to the terminal node's list. -/
def trie_insert (t : TrieNode) (key : List Nat) (song_id : Int) : TrieNode :=
  match key, t with
  | [], .node _ ids ch => .node true (song_id :: ids) ch
  | c :: rest, .node e ids ch =>
      match byteIdx c with
      | none => trie_insert (.node e ids ch) rest song_id
      | some i =>
          let child := (ch i).getD trieEmpty
          .node e ids fun j => if j = i then some (trie_insert child rest song_id) else ch j

/-- `trie_search_prefix` (renamed `trie_search_pfx` here): walk the folded
    path and return the terminal list of the node reached; a missing edge
    returns the C `NULL`, i.e. the empty list. -/
def trie_search_pfx (t : TrieNode) (p : List Nat) : List Int :=
  match p, t with
  | [], .node _ ids _ => ids
  | c :: rest, .node e ids ch =>
      match byteIdx c with
      | none => trie_search_pfx (.node e ids ch) rest
      | some i =>
          match ch i with
          | none => []
          | some child => trie_search_pfx child rest

/-- `trie_insert` on an already-folded path. -/
def trieInsertF (t : TrieNode) (ks : List (Fin 26)) (song_id : Int) : TrieNode :=
  match ks, t with
  | [], .node _ ids ch => .node true (song_id :: ids) ch
  | i :: rest, .node e ids ch =>
      let child := (ch i).getD trieEmpty
      .node e ids fun j => if j = i then some (trieInsertF child rest song_id) else ch j

/-- `trie_search_pfx` on an already-folded path. -/
def trieSearchF (t : TrieNode) (ks : List (Fin 26)) : List Int :=
  match ks, t with
  | [], .node _ ids _ => ids
  | i :: rest, .node _ _ ch =>
      match ch i with
      | none => []
      | some child => trieSearchF child rest

/-! ## Operations, stacks and the manager -/

/-- `OperationType`. -/
inductive OpType where
  | add
  | remove
  | skip
  | move_up
  | move_down
  | update_priority
deriving DecidableEq, Repr

/-- `Operation`: tagged record pushed on the history stacks. -/
structure Operation where
  type : OpType
  song_id : Int
  old_position : Int
  old_priority : Int
deriving DecidableEq, Repr

/-- The sentinel `stack_pop` returns on an empty stack. -/
def invalidOp : Operation := ⟨.add, -1, -1, -1⟩

/-- `stack_pop`: top element (or sentinel) and remaining stack. -/
def stack_pop : List Operation → Operation × List Operation
  | [] => (invalidOp, [])
  | o :: r => (o, r)

/-- `MusicQueueManager` (second build in `manager.c`): queue, popularity
    heap, the two history stacks, the upcoming FIFO and the two tries. -/
structure Manager where
  queue : DLL
  recommendations : MaxHeap
  undo_stack : List Operation
  redo_stack : List Operation
  upcoming : List Int
  song_trie : TrieNode
  artist_trie : TrieNode

/-- `manager_create(heap_capacity)`: everything empty. -/
def managerCreate (heap_capacity : Nat) : Manager :=
  { queue := dllCreate
    recommendations := { nodes := [], capacity := heap_capacity }
    undo_stack := []
    redo_stack := []
    upcoming := []
    song_trie := trieEmpty
    artist_trie := trieEmpty }

/-- `manager_add_song`: append to the queue, insert title and artist into the
    tries, push `(likes*2 + play_count)` into the heap (result ignored by the
    C code), record `OP_ADD`, clear redo. Always returns true in the model
    (the C false paths are allocation failures only). -/
def manager_add_song (m : Manager) (song_id : Int) (title artist : List Nat)
    (likes play_count : Int) : Bool × Manager :=
  let q := (dll_insert_end m.queue song_id).2
  let priority := likes * 2 + play_count
  (true,
    { queue := q
      recommendations := (heap_update_priority m.recommendations song_id priority).2
      undo_stack := ⟨.add, song_id, (q.size : Int) - 1, priority⟩ :: m.undo_stack
      redo_stack := []
      upcoming := m.upcoming
      song_trie := trie_insert m.song_trie title song_id
      artist_trie := trie_insert m.artist_trie artist song_id })

/-- The position-computation loop of `manager_remove_song`. -/
def dll_pos_loop (l : DLL) (target : Nat) : Nat → Nat → Nat
  | _, 0 => 0
  | cur, fuel + 1 => if cur = target then 0 else 1 + dll_pos_loop l target (gnext l cur) fuel

/-- `manager_remove_song`: find the first occurrence, compute its position,
    unlink it, record `OP_REMOVE`, clear redo. -/
def manager_remove_song (m : Manager) (song_id : Int) : Bool × Manager :=
  match dll_find_by_id m.queue song_id with
  | none => (false, m)
  | some a =>
      let position := match m.queue.head with
        | none => 0
        | some h => dll_pos_loop m.queue a h m.queue.size
      let q := (dll_remove m.queue a).2
      (true, { m with
                 queue := q
                 undo_stack := ⟨.remove, song_id, (position : Int), 0⟩ :: m.undo_stack
                 redo_stack := [] })

/-- `manager_skip_next`: advance `current` one link, record `OP_SKIP`. -/
def manager_skip_next (m : Manager) : Bool × Manager :=
  match m.queue.current with
  | none => (false, m)
  | some c =>
      (true, { m with
                 queue := { m.queue with current := some (getNode m.queue c).next }
                 undo_stack := ⟨.skip, (getNode m.queue c).song_id, -1, 0⟩ :: m.undo_stack
                 redo_stack := [] })

/-- `manager_skip_prev`: retreat `current` one link, record `OP_SKIP`. -/
def manager_skip_prev (m : Manager) : Bool × Manager :=
  match m.queue.current with
  | none => (false, m)
  | some c =>
      (true, { m with
                 queue := { m.queue with current := some (getNode m.queue c).prev }
                 undo_stack := ⟨.skip, (getNode m.queue c).song_id, -1, 0⟩ :: m.undo_stack
                 redo_stack := [] })

/-- `manager_move_up`: locate the node, delegate to `dll_move_up`, record
    `OP_MOVE_UP` only on success. -/
def manager_move_up (m : Manager) (song_id : Int) : Bool × Manager :=
  match dll_find_by_id m.queue song_id with
  | none => (false, m)
  | some a =>
      let r := dll_move_up m.queue a
      if r.1 then
        (true, { m with
                   queue := r.2
                   undo_stack := ⟨.move_up, song_id, -1, 0⟩ :: m.undo_stack
                   redo_stack := [] })
      else (false, m)

/-- `manager_move_down`: locate the node, delegate to `dll_move_down`, record
    `OP_MOVE_DOWN` only on success. -/
def manager_move_down (m : Manager) (song_id : Int) : Bool × Manager :=
  match dll_find_by_id m.queue song_id with
  | none => (false, m)
  | some a =>
      let r := dll_move_down m.queue a
      if r.1 then
        (true, { m with
                   queue := r.2
                   undo_stack := ⟨.move_down, song_id, -1, 0⟩ :: m.undo_stack
                   redo_stack := [] })
      else (false, m)

/-- `manager_update_priority`: recompute `likes*2 + play_count`, let the heap
    update, and record `OP_UPDATE_PRIORITY` only when the heap call
    succeeded. -/
def manager_update_priority (m : Manager) (song_id likes play_count : Int) :
    Bool × Manager :=
  let priority := likes * 2 + play_count
  let r := heap_update_priority m.recommendations song_id priority
  if r.1 then
    (true, { m with
               recommendations := r.2
               undo_stack := ⟨.update_priority, song_id, -1, priority⟩ :: m.undo_stack
               redo_stack := [] })
  else (false, { m with recommendations := r.2 })

/-- `manager_undo`: pop the top record, push it on redo, and reverse it.
    `OP_ADD` is reversed through `manager_remove_song` (which itself records
    a `REMOVE` and clears redo) followed by an extra `stack_pop`; `OP_REMOVE`
    is reversed by a bare `dll_insert_end` followed by the same extra
    `stack_pop`; moves reverse through the opposite manager move; `SKIP` and
    `UPDATE_PRIORITY` fall into the default branch and reverse nothing. -/
def manager_undo (m : Manager) : Bool × Manager :=
  match m.undo_stack with
  | [] => (false, m)
  | op :: rest =>
      let m1 : Manager := { m with undo_stack := rest, redo_stack := op :: m.redo_stack }
      match op.type with
      | .add =>
          let m2 := (manager_remove_song m1 op.song_id).2
          (true, { m2 with undo_stack := (stack_pop m2.undo_stack).2 })
      | .remove =>
          let m2 : Manager := { m1 with queue := (dll_insert_end m1.queue op.song_id).2 }
          (true, { m2 with undo_stack := (stack_pop m2.undo_stack).2 })
      | .move_up =>
          let m2 := (manager_move_down m1 op.song_id).2
          (true, { m2 with undo_stack := (stack_pop m2.undo_stack).2 })
      | .move_down =>
          let m2 := (manager_move_up m1 op.song_id).2
          (true, { m2 with undo_stack := (stack_pop m2.undo_stack).2 })
      | _ => (true, m1)

/-- `manager_redo` as written in the C source: pop the top of the redo stack
    and return true — the re-execution is only a comment in the code. -/
def manager_redo (m : Manager) : Bool × Manager :=
  match m.redo_stack with
  | [] => (false, m)
  | _ :: rest => (true, { m with redo_stack := rest })

/-- `manager_get_current_song`: `current->song_id`, or `-1` when empty. -/
def manager_get_current_song (m : Manager) : Int :=
  match m.queue.current with
  | none => -1
  | some c => (getNode m.queue c).song_id

/-- The clone loop of `manager_get_recommendations`: `insertHeap` every live
    entry of the manager's heap into a fresh heap of the same capacity. -/
def buildTempHeap (m : Manager) : MaxHeap :=
  m.recommendations.nodes.foldl
    (fun h n => (insertHeap h n.song_id n.priority).2)
    { nodes := [], capacity := m.recommendations.capacity }

/-- The extraction loop of `manager_get_recommendations`, with the extracted
    pairs kept; the C loop runs while the clone is nonempty and fewer than
    `limit` entries were produced (`fuel` only bounds the recursion and is
    called with the clone's size, which the loop never exceeds). -/
def extractLoopF : Nat → MaxHeap → Int → Nat → List HeapNode
  | 0, _, _, _ => []
  | fuel + 1, h, limit, count =>
      if h.nodes.length ≠ 0 ∧ (count : Int) < limit then
        (extractMax h).1 :: extractLoopF fuel (extractMax h).2 limit (count + 1)
      else []

/-- The `(song_id, priority)` pairs `manager_get_recommendations` extracts
    from the clone, in extraction order. -/
def recsPairs (m : Manager) (limit : Int) : List HeapNode :=
  if m.recommendations.nodes.length = 0 then []
  else extractLoopF (buildTempHeap m).nodes.length (buildTempHeap m) limit 0

/-- `manager_get_recommendations`: the linked list of song ids built in
    extraction order (C returns `NULL`, i.e. `[]`, for an empty heap). -/
def manager_get_recommendations (m : Manager) (limit : Int) : List Int :=
  (recsPairs m limit).map fun n => n.song_id

/-- `manager_get_recommendations` with the manager state threaded through:
    the C function reads `mgr`, clones the heap, extracts from the clone and
    frees it, and performs no write through `mgr`. -/
def managerGetRecommendationsS (m : Manager) (limit : Int) : List Int × Manager :=
  (manager_get_recommendations m limit, m)

/-- `manager_search_songs`: delegate to the title trie. -/
def manager_search_songs (m : Manager) (query : List Nat) : List Int :=
  trie_search_pfx m.song_trie query

/-- `manager_search_artists`: delegate to the artist trie. -/
def manager_search_artists (m : Manager) (query : List Nat) : List Int :=
  trie_search_pfx m.artist_trie query

/-- `manager_get_current_song` with the state threaded (no writes in C). -/
def managerGetCurrentSongS (m : Manager) : Int × Manager :=
  (manager_get_current_song m, m)

/-- `dll_get_size(mgr->queue)` — the `queue_size` accessor — with the state
    threaded (no writes in C). -/
def managerQueueSizeS (m : Manager) : Nat × Manager :=
  (dll_get_size m.queue, m)

/-- The `queue_snapshot` accessor (the `dll_display` traversal) with the
    state threaded (no writes in C). -/
def managerQueueSnapshotS (m : Manager) : List Int × Manager :=
  (snapshot m.queue, m)

/-- `manager_search_songs` with the state threaded (no writes in C). -/
def managerSearchSongsS (m : Manager) (query : List Nat) : List Int × Manager :=
  (manager_search_songs m query, m)

/-- `manager_search_artists` with the state threaded (no writes in C). -/
def managerSearchArtistsS (m : Manager) (query : List Nat) : List Int × Manager :=
  (manager_search_artists m query, m)

/-! ## Concrete states used by counterexamples and witnesses -/

/-- Bytes of the UTF-8 string "Señorita" (ñ is the two bytes 195, 177). -/
def senoritaBytes : List Nat := [83, 101, 195, 177, 111, 114, 105, 116, 97]

/-- Bytes of "Shawn". -/
def shawnBytes : List Nat := [83, 104, 97, 119, 110]

/-- Bytes of "se". -/
def seBytes : List Nat := [115, 101]

/-- Bytes of "seo". -/
def seoBytes : List Nat := [115, 101, 111]

/-- Bytes of "seorita". -/
def seoritaBytes : List Nat := [115, 101, 111, 114, 105, 116, 97]

/-- Fresh manager after `add_song(7, "Señorita", "Shawn", 0, 0)`. -/
def mgrSen : Manager :=
  (manager_add_song (managerCreate 16) 7 senoritaBytes shawnBytes 0 0).2

/-- Fresh manager after `add_song(1, "a", "b", 0, 0)`. -/
def mgrOne : Manager :=
  (manager_add_song (managerCreate 16) 1 [97] [98] 0 0).2

/-- Fresh manager after adding songs 1, 2, 3. -/
def mgrThree : Manager :=
  (manager_add_song
    (manager_add_song (manager_add_song (managerCreate 16) 1 [97] [98] 0 0).2
      2 [99] [100] 0 0).2
    3 [101] [102] 0 0).2

/-- `mgrThree` after one `undo()`. -/
def mgrThreeU : Manager := (manager_undo mgrThree).2

/-- Manager with heap capacity 1 holding song 1. -/
def mgrCapOne : Manager :=
  (manager_add_song (managerCreate 1) 1 [97] [98] 0 0).2

/-- `mgrThreeU` with an `ADD 3` record placed on the redo stack by hand, to
    exercise `manager_redo` on a nonempty redo stack. -/
def mgrThreeUR : Manager :=
  { mgrThreeU with redo_stack := [⟨.add, 3, 2, 0⟩] }

/-- Two-node queue `[1, 2]` built by two insertions. -/
def dllTwo : DLL :=
  (dll_insert_end (dll_insert_end dllCreate 1).2 2).2

/-- A full capacity-1 heap holding `(1, 5)`. -/
def heapFull : MaxHeap := { nodes := [⟨1, 5⟩], capacity := 1 }

/-- Manager whose heap holds `(10, 10)` and `(12, 20)` with capacity 3. -/
def mgrHeapTwo : Manager :=
  { managerCreate 3 with recommendations := { nodes := [⟨10, 10⟩, ⟨12, 20⟩], capacity := 3 } }

/-- Fresh manager after adding songs 1 and 2. -/
def mgrTwo : Manager :=
  (manager_add_song (manager_add_song (managerCreate 16) 1 [97] [98] 0 0).2
    2 [99] [100] 0 0).2

/-- Manager after `add 1; add 2; remove_song 2`: the undo stack is
    `[REMOVE 2, ADD 2, ADD 1]`. -/
def mgrRem : Manager := (manager_remove_song mgrTwo 2).2

/-! ## Basic facts about list-array access -/

theorem hget_oob (ns : List HeapNode) (i : Nat) (h : ns.length ≤ i) :
    hget ns i = ⟨-1, -1⟩ :=
  List.getD_eq_default ns _ h

theorem hget_lt (ns : List HeapNode) (i : Nat) (h : i < ns.length) :
    hget ns i = ns.get ⟨i, h⟩ :=
  List.getD_eq_getElem ns _ h

theorem hget_mem (ns : List HeapNode) (i : Nat) (h : i < ns.length) :
    hget ns i ∈ ns := by
  rw [hget_lt ns i h]
  exact ns.get_mem i h

theorem mem_iff_hget (ns : List HeapNode) (x : HeapNode) :
    x ∈ ns ↔ ∃ k, k < ns.length ∧ hget ns k = x := by
  constructor
  · intro hx
    obtain ⟨k, hk, he⟩ := List.mem_iff_getElem.mp hx
    exact ⟨k, hk, by rw [hget_lt ns k hk]; simpa using he⟩
  · rintro ⟨k, hk, rfl⟩
    exact hget_mem ns k hk

theorem hget_set (ns : List HeapNode) (i : Nat) (v : HeapNode) (k : Nat) :
    hget (ns.set i v) k = if i = k ∧ i < ns.length then v else hget ns k := by
  unfold hget
  rw [List.getD_eq_getElem?_getD, List.getD_eq_getElem?_getD, List.getElem?_set]
  by_cases hik : i = k
  · subst hik
    by_cases hlen : i < ns.length
    · have : ns[i]? = some (ns.get ⟨i, hlen⟩) := by
        simp [List.getElem?_eq_getElem hlen]
      simp [this, hlen]
    · have : ns[i]? = none := by
        simp [List.getElem?_eq_none (by omega : ns.length ≤ i)]
      simp [this, hlen]
  · simp [hik]

theorem length_swapL (ns : List HeapNode) (i j : Nat) :
    (swapL ns i j).length = ns.length := by
  simp [swapL]

theorem hget_swapL (ns : List HeapNode) (i j : Nat) (hi : i < ns.length)
    (hj : j < ns.length) (k : Nat) :
    hget (swapL ns i j) k =
      if j = k then hget ns i else if i = k then hget ns j else hget ns k := by
  unfold swapL
  rw [hget_set, hget_set]
  simp only [List.length_set]
  rcases eq_or_ne j k with rfl | hjk
  · simp [hj]
  · rcases eq_or_ne i k with rfl | hik
    · simp [hjk, hi]
    · simp [hjk, hik]

theorem pget_swapL (ns : List HeapNode) (i j : Nat) (hi : i < ns.length)
    (hj : j < ns.length) (k : Nat) :
    pgetL (swapL ns i j) k =
      if j = k then pgetL ns i else if i = k then pgetL ns j else pgetL ns k := by
  unfold pgetL
  rw [hget_swapL ns i j hi hj k]
  by_cases hjk : j = k
  · simp [hjk]
  · by_cases hik : i = k <;> simp [hjk, hik]

theorem mem_swapL (ns : List HeapNode) (i j : Nat) (hi : i < ns.length)
    (hj : j < ns.length) (x : HeapNode) :
    x ∈ swapL ns i j ↔ x ∈ ns := by
  have hlen := length_swapL ns i j
  constructor
  · intro hx
    obtain ⟨k, hk, he⟩ := (mem_iff_hget _ x).mp hx
    rw [hlen] at hk
    rw [hget_swapL ns i j hi hj k] at he
    by_cases hjk : j = k
    · exact (mem_iff_hget ns x).mpr ⟨i, hi, by simpa [hjk] using he⟩
    · by_cases hik : i = k
      · exact (mem_iff_hget ns x).mpr ⟨j, hj, by simpa [hjk, hik] using he⟩
      · exact (mem_iff_hget ns x).mpr ⟨k, hk, by simpa [hjk, hik] using he⟩
  · intro hx
    obtain ⟨k, hk, he⟩ := (mem_iff_hget ns x).mp hx
    by_cases hik : k = i
    · refine (mem_iff_hget _ x).mpr ⟨j, by omega, ?_⟩
      rw [hget_swapL ns i j hi hj j]
      by_cases hji : j = i <;> simp_all
    · by_cases hjk : k = j
      · refine (mem_iff_hget _ x).mpr ⟨i, by omega, ?_⟩
        rw [hget_swapL ns i j hi hj i]
        by_cases hji : j = i <;> simp_all
      · refine (mem_iff_hget _ x).mpr ⟨k, by omega, ?_⟩
        rw [hget_swapL ns i j hi hj k]
        simp_all [Ne.symm]

theorem hget_append_lt (ns ms : List HeapNode) (k : Nat) (h : k < ns.length) :
    hget (ns ++ ms) k = hget ns k := by
  unfold hget
  rw [List.getD_eq_getElem?_getD, List.getD_eq_getElem?_getD, List.getElem?_append_left h]

theorem hget_append_len (ns : List HeapNode) (x : HeapNode) :
    hget (ns ++ [x]) ns.length = x := by
  unfold hget
  rw [List.getD_eq_getElem?_getD]
  simp


/-! ## Sift correctness -/

theorem pget_swapL_at_j {ns : List HeapNode} {i j : Nat} (hi : i < ns.length)
    (hj : j < ns.length) : pgetL (swapL ns i j) j = pgetL ns i := by
  rw [pget_swapL ns i j hi hj j, if_pos rfl]

theorem pget_swapL_at_i {ns : List HeapNode} {i j : Nat} (hi : i < ns.length)
    (hj : j < ns.length) (hne : j ≠ i) : pgetL (swapL ns i j) i = pgetL ns j := by
  rw [pget_swapL ns i j hi hj i, if_neg hne, if_pos rfl]

theorem pget_swapL_other {ns : List HeapNode} {i j : Nat} (hi : i < ns.length)
    (hj : j < ns.length) (k : Nat) (h1 : j ≠ k) (h2 : i ≠ k) :
    pgetL (swapL ns i j) k = pgetL ns k := by
  rw [pget_swapL ns i j hi hj k, if_neg h1, if_neg h2]

/-- `UState ns i`: `ns` is a max heap except that the entry at `i` may exceed
    its parent; the children of `i` moreover fit below `i`'s parent, so the
    parent can move down into `i`'s slot. Invariant of `heapifyUp`. -/
structure UState (ns : List HeapNode) (i : Nat) : Prop where
  bound : i < ns.length
  hp : ∀ c, c < ns.length → 0 < c → c ≠ i → pgetL ns c ≤ pgetL ns ((c - 1) / 2)
  above : 0 < i → ∀ c, c < ns.length → (c - 1) / 2 = i → pgetL ns c ≤ pgetL ns ((i - 1) / 2)

theorem UState.uswapStep {ns : List HeapNode} {i : Nat} (st : UState ns i)
    (h0 : i ≠ 0) (hlt : pgetL ns ((i - 1) / 2) < pgetL ns i) :
    UState (swapL ns i ((i - 1) / 2)) ((i - 1) / 2) := by
  have hi : i < ns.length := st.bound
  have hpl : (i - 1) / 2 < ns.length := by omega
  refine ⟨by rw [length_swapL]; omega, ?_, ?_⟩
  · intro c hc hc0 hcp
    rw [length_swapL] at hc
    rcases eq_or_ne c i with rfl | hci
    · -- the moved-down parent at slot `c` against its new parent at `(c-1)/2`
      rw [pget_swapL_at_i hi hpl (by omega), pget_swapL_at_j hi hpl]
      exact le_of_lt hlt
    · rcases eq_or_ne ((c - 1) / 2) i with hpc | hpc
      · -- a child of `i`: its parent slot now holds the old parent value
        rw [pget_swapL_other hi hpl c (by omega) (by omega), hpc,
          pget_swapL_at_i hi hpl (by omega)]
        exact st.above (by omega) c hc hpc
      · rcases eq_or_ne ((c - 1) / 2) ((i - 1) / 2) with hcp3 | hcp3
        · -- a sibling of `i`: its parent slot now holds the old `i` value
          rw [pget_swapL_other hi hpl c (by omega) (by omega), hcp3,
            pget_swapL_at_j hi hpl]
          calc pgetL ns c ≤ pgetL ns ((c - 1) / 2) := st.hp c hc hc0 hci
            _ = pgetL ns ((i - 1) / 2) := by rw [hcp3]
            _ ≤ pgetL ns i := le_of_lt hlt
        · -- an edge not touching the swapped slots
          rw [pget_swapL_other hi hpl c (by omega) (by omega),
            pget_swapL_other hi hpl ((c - 1) / 2) (by omega) (by omega)]
          exact st.hp c hc hc0 hci
  · intro hp0 c hc hpc
    rw [length_swapL] at hc
    rw [pget_swapL_other hi hpl (((i - 1) / 2 - 1) / 2) (by omega) (by omega)]
    by_cases hci : c = i
    · rw [hci, pget_swapL_at_i hi hpl (by omega)]
      exact st.hp ((i - 1) / 2) hpl hp0 (by omega)
    · rw [pget_swapL_other hi hpl c (by omega) (by omega)]
      calc pgetL ns c ≤ pgetL ns ((c - 1) / 2) := st.hp c hc (by omega) hci
        _ = pgetL ns ((i - 1) / 2) := by rw [hpc]
        _ ≤ pgetL ns (((i - 1) / 2 - 1) / 2) := st.hp ((i - 1) / 2) hpl hp0 (by omega)

theorem heapifyUpF_spec : ∀ fuel ns i, i ≤ fuel → UState ns i →
    heapProp (heapifyUpF fuel ns i) ∧ (heapifyUpF fuel ns i).length = ns.length ∧
      ∀ x, x ∈ heapifyUpF fuel ns i ↔ x ∈ ns
  | 0, ns, i, hle, st => by
      refine ⟨?_, rfl, fun x => Iff.rfl⟩
      intro c hc hc0
      exact st.hp c hc hc0 (by omega)
  | fuel + 1, ns, i, hle, st => by
      simp only [heapifyUpF]
      by_cases h0 : i = 0
      · rw [if_pos h0]
        refine ⟨?_, rfl, fun x => Iff.rfl⟩
        intro c hc hc0
        exact st.hp c hc hc0 (by omega)
      · rw [if_neg h0]
        by_cases hlt : pgetL ns ((i - 1) / 2) < pgetL ns i
        · rw [if_pos hlt]
          have ih := heapifyUpF_spec fuel (swapL ns i ((i - 1) / 2)) ((i - 1) / 2)
            (by omega) (st.uswapStep h0 hlt)
          refine ⟨ih.1, ?_, ?_⟩
          · rw [ih.2.1, length_swapL]
          · intro x
            rw [ih.2.2 x, mem_swapL ns i ((i - 1) / 2) st.bound (by have := st.bound; omega)]
        · rw [if_neg hlt]
          refine ⟨?_, rfl, fun x => Iff.rfl⟩
          intro c hc hc0
          rcases eq_or_ne c i with rfl | hci
          · exact le_of_not_lt hlt
          · exact st.hp c hc hc0 hci

theorem heapifyUp_spec {ns : List HeapNode} {i : Nat} (st : UState ns i) :
    heapProp (heapifyUp ns i) ∧ (heapifyUp ns i).length = ns.length ∧
      ∀ x, x ∈ heapifyUp ns i ↔ x ∈ ns :=
  heapifyUpF_spec i ns i le_rfl st

/-- The facts the selection of `largest` guarantees when it differs from `i`:
    an in-bounds child of `i`, strictly greater than the entry at `i`, and at
    least every in-bounds child of `i`. -/
theorem chooseLargest_spec {ns : List HeapNode} {i : Nat}
    (h : chooseLargest ns i ≠ i) :
    i < chooseLargest ns i ∧ chooseLargest ns i < ns.length ∧
      (chooseLargest ns i - 1) / 2 = i ∧ pgetL ns i < pgetL ns (chooseLargest ns i) ∧
      ∀ c, c < ns.length → (c - 1) / 2 = i → pgetL ns c ≤ pgetL ns (chooseLargest ns i) := by
  by_cases h1 : 2 * i + 1 < ns.length ∧ pgetL ns i < pgetL ns (2 * i + 1)
  · by_cases h2 : 2 * i + 2 < ns.length ∧ pgetL ns (2 * i + 1) < pgetL ns (2 * i + 2)
    · have hL : chooseLargest ns i = 2 * i + 2 := by
        simp only [chooseLargest, if_pos h1, if_pos h2]
      rw [hL]
      refine ⟨by omega, by omega, by omega, by omega, ?_⟩
      intro c hc hpc
      have hcc : c = 2 * i + 1 ∨ c = 2 * i + 2 ∨ (c = 0 ∧ i = 0) := by omega
      rcases hcc with rfl | rfl | ⟨rfl, rfl⟩ <;> omega
    · have hL : chooseLargest ns i = 2 * i + 1 := by
        simp only [chooseLargest, if_pos h1, if_neg h2]
      rw [hL]
      refine ⟨by omega, by omega, by omega, by omega, ?_⟩
      intro c hc hpc
      have hcc : c = 2 * i + 1 ∨ c = 2 * i + 2 ∨ (c = 0 ∧ i = 0) := by omega
      rcases hcc with rfl | rfl | ⟨rfl, rfl⟩ <;> omega
  · by_cases h2 : 2 * i + 2 < ns.length ∧ pgetL ns i < pgetL ns (2 * i + 2)
    · have hL : chooseLargest ns i = 2 * i + 2 := by
        simp only [chooseLargest, if_neg h1, if_pos h2]
      rw [hL]
      refine ⟨by omega, by omega, by omega, by omega, ?_⟩
      intro c hc hpc
      have hcc : c = 2 * i + 1 ∨ c = 2 * i + 2 ∨ (c = 0 ∧ i = 0) := by omega
      rcases hcc with rfl | rfl | ⟨rfl, rfl⟩ <;> omega
    · have hL : chooseLargest ns i = i := by
        simp only [chooseLargest, if_neg h1, if_neg h2]
      exact absurd hL h

/-- When the selection sticks at `i`, every in-bounds child of `i` is at most
    the entry at `i`. -/
theorem chooseLargest_eq_spec {ns : List HeapNode} {i : Nat}
    (h : chooseLargest ns i = i) :
    ∀ c, c < ns.length → (c - 1) / 2 = i → pgetL ns c ≤ pgetL ns i := by
  by_cases h1 : 2 * i + 1 < ns.length ∧ pgetL ns i < pgetL ns (2 * i + 1)
  · by_cases h2 : 2 * i + 2 < ns.length ∧ pgetL ns (2 * i + 1) < pgetL ns (2 * i + 2)
    · rw [show chooseLargest ns i = 2 * i + 2 by
        simp only [chooseLargest, if_pos h1, if_pos h2]] at h
      omega
    · rw [show chooseLargest ns i = 2 * i + 1 by
        simp only [chooseLargest, if_pos h1, if_neg h2]] at h
      omega
  · by_cases h2 : 2 * i + 2 < ns.length ∧ pgetL ns i < pgetL ns (2 * i + 2)
    · rw [show chooseLargest ns i = 2 * i + 2 by
        simp only [chooseLargest, if_neg h1, if_pos h2]] at h
      omega
    · intro c hc hpc
      have hcc : c = 2 * i + 1 ∨ c = 2 * i + 2 ∨ (c = 0 ∧ i = 0) := by omega
      rcases hcc with rfl | rfl | ⟨rfl, rfl⟩ <;> omega

/-- `DState ns i`: `ns` is a max heap except that the children of `i` may
    exceed the entry at `i`; they still fit below `i`'s parent. Invariant of
    `heapifyDown`. -/
structure DState (ns : List HeapNode) (i : Nat) : Prop where
  hp : ∀ c, c < ns.length → 0 < c → (c - 1) / 2 ≠ i → pgetL ns c ≤ pgetL ns ((c - 1) / 2)
  above : 0 < i → ∀ c, c < ns.length → (c - 1) / 2 = i → pgetL ns c ≤ pgetL ns ((i - 1) / 2)

theorem DState.dswapStep {ns : List HeapNode} {i : Nat} (st : DState ns i)
    (h : chooseLargest ns i ≠ i) :
    DState (swapL ns i (chooseLargest ns i)) (chooseLargest ns i) := by
  obtain ⟨hiL, hLl, hparL, hltL, hdom⟩ := chooseLargest_spec h
  have hi : i < ns.length := by omega
  refine ⟨?_, ?_⟩
  · intro c hc hc0 hcp
    rw [length_swapL] at hc
    rcases eq_or_ne c (chooseLargest ns i) with rfl | hcL
    · -- the moved-down entry at slot `c = largest`, against its parent `i`
      rw [pget_swapL_at_j hi hLl, hparL, pget_swapL_at_i hi hLl (by omega)]
      exact le_of_lt hltL
    · by_cases hci : c = i
      · -- the moved-up child at slot `i`, against `i`'s old parent
        rw [hci, pget_swapL_at_i hi hLl (by omega),
          pget_swapL_other hi hLl ((i - 1) / 2) (by omega) (by omega)]
        exact st.above (by omega) (chooseLargest ns i) hLl hparL
      · rcases eq_or_ne ((c - 1) / 2) i with hpc | hpc
        · -- a sibling of `largest`: its parent slot now holds the max child
          rw [pget_swapL_other hi hLl c (by omega) (by omega), hpc,
            pget_swapL_at_i hi hLl (by omega)]
          exact hdom c hc hpc
        · rw [pget_swapL_other hi hLl c (by omega) (by omega),
            pget_swapL_other hi hLl ((c - 1) / 2) (by omega) (by omega)]
          exact st.hp c hc hc0 hpc
  · intro hL0 c hc hpcL
    rw [length_swapL] at hc
    rw [hparL, pget_swapL_at_i hi hLl (by omega),
      pget_swapL_other hi hLl c (by omega) (by omega)]
    calc pgetL ns c ≤ pgetL ns ((c - 1) / 2) := st.hp c hc (by omega) (by omega)
      _ = pgetL ns (chooseLargest ns i) := by rw [hpcL]

theorem heapifyDownF_spec : ∀ fuel ns i, ns.length - i ≤ fuel → DState ns i →
    heapProp (heapifyDownF fuel ns i) ∧ (heapifyDownF fuel ns i).length = ns.length ∧
      ∀ x, x ∈ heapifyDownF fuel ns i ↔ x ∈ ns
  | 0, ns, i, hle, st => by
      refine ⟨?_, rfl, fun x => Iff.rfl⟩
      intro c hc hc0
      have hc' : c < ns.length := hc
      exact st.hp c hc' hc0 (by omega)
  | fuel + 1, ns, i, hle, st => by
      simp only [heapifyDownF]
      by_cases hL : chooseLargest ns i = i
      · rw [if_pos hL]
        refine ⟨?_, rfl, fun x => Iff.rfl⟩
        intro c hc hc0
        rcases eq_or_ne ((c - 1) / 2) i with hpc | hpc
        · rw [hpc]
          exact chooseLargest_eq_spec hL c hc hpc
        · exact st.hp c hc hc0 hpc
      · rw [if_neg hL]
        obtain ⟨hiL, hLl, _, _, _⟩ := chooseLargest_spec hL
        have ih := heapifyDownF_spec fuel (swapL ns i (chooseLargest ns i))
          (chooseLargest ns i) (by rw [length_swapL]; omega) (st.dswapStep hL)
        refine ⟨ih.1, ?_, ?_⟩
        · rw [ih.2.1, length_swapL]
        · intro x
          rw [ih.2.2 x, mem_swapL ns i (chooseLargest ns i) (by omega) hLl]

theorem heapifyDown_spec {ns : List HeapNode} {i : Nat} (st : DState ns i) :
    heapProp (heapifyDown ns i) ∧ (heapifyDown ns i).length = ns.length ∧
      ∀ x, x ∈ heapifyDown ns i ↔ x ∈ ns :=
  heapifyDownF_spec ns.length ns i (by omega) st

/-- Unconditional length preservation for `heapifyDownF`. -/
theorem heapifyDownF_length : ∀ fuel ns i, (heapifyDownF fuel ns i).length = ns.length
  | 0, _, _ => rfl
  | fuel + 1, ns, i => by
      simp only [heapifyDownF]
      by_cases hL : chooseLargest ns i = i
      · rw [if_pos hL]
      · rw [if_neg hL, heapifyDownF_length fuel, length_swapL]

/-- Unconditional membership preservation for `heapifyDownF`: whenever the
    recursion swaps, the indices are in bounds by `chooseLargest_spec`. -/
theorem heapifyDownF_mem : ∀ fuel ns i x, x ∈ heapifyDownF fuel ns i ↔ x ∈ ns
  | 0, _, _, _ => Iff.rfl
  | fuel + 1, ns, i, x => by
      simp only [heapifyDownF]
      by_cases hL : chooseLargest ns i = i
      · rw [if_pos hL]
      · rw [if_neg hL]
        obtain ⟨hiL, hLl, _, _, _⟩ := chooseLargest_spec hL
        rw [heapifyDownF_mem fuel _ _ x, mem_swapL ns i (chooseLargest ns i) (by omega) hLl]

/-! ## Extraction and insertion -/

theorem pget_le_root {ns : List HeapNode} (hp : heapProp ns) :
    ∀ c, c < ns.length → pgetL ns c ≤ pgetL ns 0 := by
  intro c
  induction c using Nat.strong_induction_on with
  | _ c ih =>
    intro hc
    rcases Nat.eq_zero_or_pos c with rfl | hc0
    · exact le_refl _
    · calc pgetL ns c ≤ pgetL ns ((c - 1) / 2) := hp c hc hc0
        _ ≤ pgetL ns 0 := ih ((c - 1) / 2) (by omega) (by omega)

theorem mem_le_root {ns : List HeapNode} (hp : heapProp ns) {x : HeapNode}
    (hx : x ∈ ns) : x.priority ≤ pgetL ns 0 := by
  obtain ⟨k, hk, rfl⟩ := (mem_iff_hget ns x).mp hx
  exact pget_le_root hp k hk

theorem hget_dropLast (ns : List HeapNode) (k : Nat) (h : k < ns.length - 1) :
    hget ns.dropLast k = hget ns k := by
  unfold hget
  rw [List.getD_eq_getElem?_getD, List.getD_eq_getElem?_getD, List.dropLast_eq_take,
    List.getElem?_take_of_lt h]

/-- After replacing the root by the last entry and shrinking, only the edges
    out of the root can be disordered. -/
theorem extract_dstate {ns : List HeapNode} (hp : heapProp ns) (v : HeapNode) :
    DState ((ns.set 0 v).dropLast) 0 := by
  refine ⟨?_, ?_⟩
  · intro c hc hc0 hcp
    have hlen : ((ns.set 0 v).dropLast).length = ns.length - 1 := by
      simp [List.length_dropLast]
    rw [hlen] at hc
    unfold pgetL
    rw [hget_dropLast _ c (by simpa using hc), hget_dropLast _ ((c - 1) / 2) (by simp; omega),
      hget_set, hget_set]
    rw [if_neg (by omega), if_neg (by omega)]
    exact hp c (by omega) hc0
  · intro h0
    omega

theorem extractMax_fst {h : MaxHeap} (hne : h.nodes.length ≠ 0) :
    (extractMax h).1 = hget h.nodes 0 := by
  simp only [extractMax, if_neg hne]

theorem extractMax_capacity (h : MaxHeap) : (extractMax h).2.capacity = h.capacity := by
  unfold extractMax
  by_cases hne : h.nodes.length = 0
  · rw [if_pos hne]
  · simp only [if_neg hne]

theorem extractMax_length {h : MaxHeap} (hne : h.nodes.length ≠ 0) :
    (extractMax h).2.nodes.length = h.nodes.length - 1 := by
  simp only [extractMax, if_neg hne]
  by_cases hz : ((h.nodes.set 0 (hget h.nodes (h.nodes.length - 1))).dropLast).length > 0
  · rw [if_pos hz]
    unfold heapifyDown
    rw [heapifyDownF_length]
    simp [List.length_dropLast]
  · rw [if_neg hz]
    simp only [List.length_dropLast, List.length_set]

theorem extractMax_mem {h : MaxHeap} (hne : h.nodes.length ≠ 0) {x : HeapNode}
    (hx : x ∈ (extractMax h).2.nodes) : x ∈ h.nodes := by
  simp only [extractMax, if_neg hne] at hx
  have hx1 : x ∈ (h.nodes.set 0 (hget h.nodes (h.nodes.length - 1))).dropLast := by
    by_cases hz : ((h.nodes.set 0 (hget h.nodes (h.nodes.length - 1))).dropLast).length > 0
    · rw [if_pos hz] at hx
      unfold heapifyDown at hx
      exact (heapifyDownF_mem _ _ _ x).mp hx
    · rw [if_neg hz] at hx
      exact hx
  have hx2 := List.dropLast_subset _ hx1
  rcases List.mem_or_eq_of_mem_set hx2 with hmem | rfl
  · exact hmem
  · exact hget_mem h.nodes (h.nodes.length - 1) (by omega)

theorem extractMax_heapProp {h : MaxHeap} (hp : heapProp h.nodes) :
    heapProp (extractMax h).2.nodes := by
  unfold extractMax
  by_cases hne : h.nodes.length = 0
  · rw [if_pos hne]
    exact hp
  · simp only [if_neg hne]
    by_cases hz : ((h.nodes.set 0 (hget h.nodes (h.nodes.length - 1))).dropLast).length > 0
    · rw [if_pos hz]
      exact (heapifyDown_spec (extract_dstate hp _)).1
    · rw [if_neg hz]
      intro c hc hc0
      simp only [List.length_dropLast, List.length_set] at hz hc
      omega

theorem extractMax_root_ge {h : MaxHeap} (hp : heapProp h.nodes)
    (hne : h.nodes.length ≠ 0) {x : HeapNode} (hx : x ∈ (extractMax h).2.nodes) :
    x.priority ≤ (extractMax h).1.priority := by
  rw [extractMax_fst hne]
  exact mem_le_root hp (extractMax_mem hne hx)

/-! ## The extraction loop -/

theorem extractLoopF_length : ∀ fuel (h : MaxHeap) (limit : Int) (count : Nat),
    h.nodes.length ≤ fuel → (count + h.nodes.length : Int) ≤ limit →
    (extractLoopF fuel h limit count).length = h.nodes.length
  | 0, h, limit, count, hf, hl => by
      simp only [extractLoopF, List.length_nil]
      omega
  | fuel + 1, h, limit, count, hf, hl => by
      simp only [extractLoopF]
      by_cases hne : h.nodes.length ≠ 0
      · rw [if_pos ⟨hne, by push_cast at hl ⊢; omega⟩]
        have ih := extractLoopF_length fuel (extractMax h).2 limit (count + 1)
          (by rw [extractMax_length hne]; omega)
          (by rw [extractMax_length hne]; push_cast at hl ⊢; omega)
        simp only [List.length_cons, ih, extractMax_length hne]
        omega
      · push_neg at hne
        rw [if_neg (by simp [hne])]
        simp [hne]

theorem extractLoopF_mem : ∀ fuel (h : MaxHeap) (limit : Int) (count : Nat)
    (x : HeapNode), x ∈ extractLoopF fuel h limit count → x ∈ h.nodes
  | 0, h, limit, count, x, hx => by simp [extractLoopF] at hx
  | fuel + 1, h, limit, count, x, hx => by
      simp only [extractLoopF] at hx
      by_cases hcond : h.nodes.length ≠ 0 ∧ (count : Int) < limit
      · rw [if_pos hcond] at hx
        rcases List.mem_cons.mp hx with rfl | htail
        · rw [extractMax_fst hcond.1]
          exact hget_mem h.nodes 0 (by omega)
        · exact extractMax_mem hcond.1
            (extractLoopF_mem fuel (extractMax h).2 limit (count + 1) x htail)
      · rw [if_neg hcond] at hx
        simp at hx

theorem extractLoopF_sorted : ∀ fuel (h : MaxHeap) (limit : Int) (count : Nat),
    heapProp h.nodes →
    List.Pairwise (fun a b : HeapNode => b.priority ≤ a.priority)
      (extractLoopF fuel h limit count)
  | 0, h, limit, count, hp => by simp [extractLoopF]
  | fuel + 1, h, limit, count, hp => by
      simp only [extractLoopF]
      by_cases hcond : h.nodes.length ≠ 0 ∧ (count : Int) < limit
      · rw [if_pos hcond]
        refine List.Pairwise.cons ?_ ?_
        · intro y hy
          exact extractMax_root_ge hp hcond.1
            (extractLoopF_mem fuel (extractMax h).2 limit (count + 1) y hy)
        · exact extractLoopF_sorted fuel (extractMax h).2 limit (count + 1)
            (extractMax_heapProp hp)
      · rw [if_neg hcond]
        exact List.Pairwise.nil

/-! ## Building the clone heap -/

/-- Appending a fresh entry leaves a heap ordered except possibly along the
    edge into the new last slot. -/
theorem insert_ustate {ns : List HeapNode} (hp : heapProp ns) (x : HeapNode) :
    UState (ns ++ [x]) ns.length := by
  refine ⟨by simp, ?_, ?_⟩
  · intro c hc hc0 hci
    have hc' : c < ns.length := by simp at hc; omega
    unfold pgetL
    rw [hget_append_lt ns [x] c hc', hget_append_lt ns [x] ((c - 1) / 2) (by omega)]
    exact hp c hc' hc0
  · intro h0 c hc hpc
    simp only [List.length_append, List.length_singleton] at hc
    omega

theorem insertHeap_spec {h : MaxHeap} (hp : heapProp h.nodes)
    (hroom : h.nodes.length < h.capacity) (sid p : Int) :
    (insertHeap h sid p).1 = true ∧
      (insertHeap h sid p).2.nodes.length = h.nodes.length + 1 ∧
      heapProp (insertHeap h sid p).2.nodes ∧
      (insertHeap h sid p).2.capacity = h.capacity := by
  have hne : ¬ h.nodes.length ≥ h.capacity := by omega
  have key : insertHeap h sid p =
      (true, { h with nodes := heapifyUp (h.nodes ++ [⟨sid, p⟩]) h.nodes.length }) := by
    unfold insertHeap
    rw [if_neg hne]
  rw [key]
  have hspec := heapifyUp_spec (insert_ustate hp (⟨sid, p⟩ : HeapNode))
  refine ⟨rfl, ?_, hspec.1, rfl⟩
  show (heapifyUp (h.nodes ++ [⟨sid, p⟩]) h.nodes.length).length = h.nodes.length + 1
  rw [hspec.2.1]
  simp

theorem buildLoop_spec : ∀ (ls : List HeapNode) (acc : MaxHeap),
    heapProp acc.nodes → acc.nodes.length + ls.length ≤ acc.capacity →
    (ls.foldl (fun h n => (insertHeap h n.song_id n.priority).2) acc).nodes.length
        = acc.nodes.length + ls.length ∧
      heapProp (ls.foldl (fun h n => (insertHeap h n.song_id n.priority).2) acc).nodes ∧
      (ls.foldl (fun h n => (insertHeap h n.song_id n.priority).2) acc).capacity
        = acc.capacity
  | [], acc, hp, hcap => ⟨by simp, hp, rfl⟩
  | n :: rest, acc, hp, hcap => by
      simp only [List.foldl_cons]
      have hstep := insertHeap_spec hp (by simp at hcap; omega) n.song_id n.priority
      have ih := buildLoop_spec rest (insertHeap acc n.song_id n.priority).2
        hstep.2.2.1 (by rw [hstep.2.1, hstep.2.2.2]; simp at hcap ⊢; omega)
      refine ⟨?_, ih.2.1, ?_⟩
      · rw [ih.1, hstep.2.1]
        simp
        omega
      · rw [ih.2.2, hstep.2.2.2]

/-- The clone built by `manager_get_recommendations` has the same number of
    live entries as the manager's heap and satisfies the heap property —
    whatever the manager's heap contains. -/
theorem buildTempHeap_spec (m : Manager)
    (hcap : m.recommendations.nodes.length ≤ m.recommendations.capacity) :
    (buildTempHeap m).nodes.length = m.recommendations.nodes.length ∧
      heapProp (buildTempHeap m).nodes := by
  have hb := buildLoop_spec m.recommendations.nodes
    { nodes := [], capacity := m.recommendations.capacity }
    (by intro c hc hc0; simp at hc) (by simpa using hcap)
  exact ⟨by simpa using hb.1, hb.2.1⟩

/-! ## `heap_update_priority` -/

theorem findSongIdx_some : ∀ (ns : List HeapNode) (id : Int) (i : Nat),
    findSongIdx ns id = some i → i < ns.length ∧ (hget ns i).song_id = id
  | [], id, i, h => by simp [findSongIdx] at h
  | n :: rest, id, i, h => by
      simp only [findSongIdx] at h
      by_cases hn : n.song_id = id
      · rw [if_pos hn] at h
        obtain rfl : i = 0 := by simpa using h.symm
        exact ⟨by simp, by simpa [hget] using hn⟩
      · rw [if_neg hn] at h
        obtain ⟨j, hj, rfl⟩ := Option.map_eq_some'.mp h
        have ih := findSongIdx_some rest id j hj
        refine ⟨by simp; omega, ?_⟩
        have : hget (n :: rest) (j + 1) = hget rest j := by
          unfold hget
          rw [List.getD_cons_succ]
        rw [this]
        exact ih.2

/-- Raising an entry in place leaves a heap ordered except along the edge
    into its slot. -/
theorem set_inc_ustate {ns : List HeapNode} (hp : heapProp ns) {i : Nat}
    (hi : i < ns.length) (v : HeapNode) (hinc : pgetL ns i ≤ v.priority) :
    UState (ns.set i v) i := by
  have hpg : ∀ k, pgetL (ns.set i v) k = if i = k then v.priority else pgetL ns k := by
    intro k
    unfold pgetL
    rw [hget_set]
    by_cases hik : i = k
    · rw [if_pos ⟨hik, hi⟩, if_pos hik]
    · rw [if_neg (fun hcon => hik hcon.1), if_neg hik]
  refine ⟨by rw [List.length_set]; exact hi, ?_, ?_⟩
  · intro c hc hc0 hci
    rw [List.length_set] at hc
    rw [hpg c, if_neg (Ne.symm hci), hpg ((c - 1) / 2)]
    by_cases hpci : (c - 1) / 2 = i
    · rw [if_pos (Eq.symm hpci)]
      calc pgetL ns c ≤ pgetL ns ((c - 1) / 2) := hp c hc hc0
        _ = pgetL ns i := by rw [hpci]
        _ ≤ v.priority := hinc
    · rw [if_neg (show ¬ i = (c - 1) / 2 from fun hcon => hpci hcon.symm)]
      exact hp c hc hc0
  · intro h0 c hc hpc
    rw [List.length_set] at hc
    have hci : c ≠ i := by omega
    rw [hpg c, if_neg (Ne.symm hci), hpg ((i - 1) / 2),
      if_neg (show ¬ i = (i - 1) / 2 by omega)]
    calc pgetL ns c ≤ pgetL ns ((c - 1) / 2) := hp c hc (by omega)
      _ = pgetL ns i := by rw [hpc]
      _ ≤ pgetL ns ((i - 1) / 2) := hp i hi h0

/-- Lowering an entry in place leaves a heap ordered except along the edges
    out of its slot. -/
theorem set_dec_dstate {ns : List HeapNode} (hp : heapProp ns) {i : Nat}
    (hi : i < ns.length) (v : HeapNode) (hdec : v.priority ≤ pgetL ns i) :
    DState (ns.set i v) i := by
  have hpg : ∀ k, pgetL (ns.set i v) k = if i = k then v.priority else pgetL ns k := by
    intro k
    unfold pgetL
    rw [hget_set]
    by_cases hik : i = k
    · rw [if_pos ⟨hik, hi⟩, if_pos hik]
    · rw [if_neg (fun hcon => hik hcon.1), if_neg hik]
  refine ⟨?_, ?_⟩
  · intro c hc hc0 hcp
    rw [List.length_set] at hc
    rw [hpg c, hpg ((c - 1) / 2),
      if_neg (show ¬ i = (c - 1) / 2 from fun hcon => hcp hcon.symm)]
    by_cases hci : i = c
    · rw [if_pos hci]
      subst hci
      calc v.priority ≤ pgetL ns i := hdec
        _ ≤ pgetL ns ((i - 1) / 2) := hp i hi hc0
    · rw [if_neg hci]
      exact hp c hc hc0
  · intro h0 c hc hpc
    rw [List.length_set] at hc
    have hci : c ≠ i := by omega
    rw [hpg c, if_neg (Ne.symm hci), hpg ((i - 1) / 2),
      if_neg (show ¬ i = (i - 1) / 2 by omega)]
    calc pgetL ns c ≤ pgetL ns ((c - 1) / 2) := hp c hc (by omega)
      _ = pgetL ns i := by rw [hpc]
      _ ≤ pgetL ns ((i - 1) / 2) := hp i hi h0

/-! ## Trie: folding and search after insert -/

theorem trie_insert_eq_insertF : ∀ (key : List Nat) (t : TrieNode) (id : Int),
    trie_insert t key id = trieInsertF t (foldKey key) id
  | [], t, id => by cases t; rfl
  | c :: rest, t, id => by
      cases t with
      | node e ids ch =>
        cases hbi : byteIdx c with
        | none =>
            simp only [trie_insert, hbi, foldKey, List.filterMap_cons_none hbi]
            exact trie_insert_eq_insertF rest _ id
        | some i =>
            simp only [trie_insert, hbi, foldKey, List.filterMap_cons_some hbi, trieInsertF]
            have ih := trie_insert_eq_insertF rest ((ch i).getD trieEmpty) id
            simp only [foldKey] at ih
            simp only [ih]

theorem trie_search_eq_searchF : ∀ (p : List Nat) (t : TrieNode),
    trie_search_pfx t p = trieSearchF t (foldKey p)
  | [], t => by cases t; rfl
  | c :: rest, t => by
      cases t with
      | node e ids ch =>
        cases hbi : byteIdx c with
        | none =>
            simp only [trie_search_pfx, hbi, foldKey, List.filterMap_cons_none hbi]
            exact trie_search_eq_searchF rest _
        | some i =>
            simp only [trie_search_pfx, hbi, foldKey, List.filterMap_cons_some hbi,
              trieSearchF]
            cases hch : ch i with
            | none => rfl
            | some child =>
                have ih := trie_search_eq_searchF rest child
                simp only [foldKey] at ih
                simp only [ih]

theorem trieSearchF_empty : ∀ ks : List (Fin 26), trieSearchF trieEmpty ks = []
  | [] => rfl
  | _ :: _ => rfl

theorem trieSearchF_insertF : ∀ (ks : List (Fin 26)) (t : TrieNode) (id : Int),
    trieSearchF (trieInsertF t ks id) ks = id :: trieSearchF t ks
  | [], t, id => by cases t; rfl
  | k :: ks, t, id => by
      cases t with
      | node e ids ch =>
        have hred : trieSearchF (trieInsertF (.node e ids ch) (k :: ks) id) (k :: ks)
            = trieSearchF (trieInsertF ((ch k).getD trieEmpty) ks id) ks := by
          simp [trieInsertF, trieSearchF]
        rw [hred, trieSearchF_insertF ks ((ch k).getD trieEmpty) id]
        cases hch : ch k with
        | none => simp [trieSearchF, hch, trieSearchF_empty]
        | some child => simp [trieSearchF, hch]

/-- After inserting a key, searching any prefix with the same case-folded
    alphabetic-filtered form finds the inserted id in the terminal list. -/
theorem trie_search_after_insert (t : TrieNode) (key p : List Nat) (id : Int)
    (hf : foldKey key = foldKey p) :
    id ∈ trie_search_pfx (trie_insert t key id) p := by
  rw [trie_search_eq_searchF, trie_insert_eq_insertF, hf, trieSearchF_insertF]
  exact List.mem_cons_self _ _

/-! ## Queue arena access -/

theorem getD_set_gen {α : Type} (l : List α) (i : Nat) (v : α) (k : Nat) (d : α) :
    (l.set i v).getD k d = if i = k ∧ i < l.length then v else l.getD k d := by
  rw [List.getD_eq_getElem?_getD, List.getD_eq_getElem?_getD, List.getElem?_set]
  by_cases hik : i = k
  · subst hik
    by_cases hlen : i < l.length
    · have : l[i]? = some (l.get ⟨i, hlen⟩) := by
        simp [List.getElem?_eq_getElem hlen]
      simp [this, hlen]
    · have : l[i]? = none := by
        simp [List.getElem?_eq_none (by omega : l.length ≤ i)]
      simp [this, hlen]
  · simp [hik]

theorem getD_append_lt_gen {α : Type} (l1 l2 : List α) (k : Nat) (d : α)
    (h : k < l1.length) : (l1 ++ l2).getD k d = l1.getD k d := by
  rw [List.getD_eq_getElem?_getD, List.getD_eq_getElem?_getD, List.getElem?_append_left h]

theorem getD_append_len_gen {α : Type} (l1 : List α) (x : α) (d : α) :
    (l1 ++ [x]).getD l1.length d = x := by
  rw [List.getD_eq_getElem?_getD]
  simp

/-- Liveness of an arena slot. -/
def isLive (l : DLL) (a : Nat) : Bool := (l.mem.getD a none).isSome

theorem isLive_lt {l : DLL} {a : Nat} (h : isLive l a = true) : a < l.mem.length := by
  by_contra hcon
  unfold isLive at h
  rw [List.getD_eq_default _ _ (by omega)] at h
  simp at h

theorem getNode_setNext (l : DLL) (x v y : Nat) :
    getNode (setNext l x v) y =
      if x = y ∧ x < l.mem.length then { getNode l x with next := v }
      else getNode l y := by
  unfold getNode setNext
  dsimp only
  rw [getD_set_gen]
  by_cases hxy : x = y ∧ x < l.mem.length
  · rw [if_pos hxy, if_pos hxy]
    rfl
  · rw [if_neg hxy, if_neg hxy]

theorem getNode_setPrev (l : DLL) (x v y : Nat) :
    getNode (setPrev l x v) y =
      if x = y ∧ x < l.mem.length then { getNode l x with prev := v }
      else getNode l y := by
  unfold getNode setPrev
  dsimp only
  rw [getD_set_gen]
  by_cases hxy : x = y ∧ x < l.mem.length
  · rw [if_pos hxy, if_pos hxy]
    rfl
  · rw [if_neg hxy, if_neg hxy]

theorem gnext_setPrev (l : DLL) (x v y : Nat) : gnext (setPrev l x v) y = gnext l y := by
  unfold gnext
  rw [getNode_setPrev]
  by_cases hxy : x = y ∧ x < l.mem.length
  · rw [if_pos hxy]
    rcases hxy with ⟨rfl, _⟩
    rfl
  · rw [if_neg hxy]

theorem gnext_setNext (l : DLL) (x v y : Nat) :
    gnext (setNext l x v) y =
      if x = y ∧ x < l.mem.length then v else gnext l y := by
  unfold gnext
  rw [getNode_setNext]
  by_cases hxy : x = y ∧ x < l.mem.length
  · rw [if_pos hxy, if_pos hxy]
  · rw [if_neg hxy, if_neg hxy]

theorem song_setNext (l : DLL) (x v y : Nat) :
    (getNode (setNext l x v) y).song_id = (getNode l y).song_id := by
  rw [getNode_setNext]
  by_cases hxy : x = y ∧ x < l.mem.length
  · rw [if_pos hxy]
    rcases hxy with ⟨rfl, _⟩
    rfl
  · rw [if_neg hxy]

theorem song_setPrev (l : DLL) (x v y : Nat) :
    (getNode (setPrev l x v) y).song_id = (getNode l y).song_id := by
  rw [getNode_setPrev]
  by_cases hxy : x = y ∧ x < l.mem.length
  · rw [if_pos hxy]
    rcases hxy with ⟨rfl, _⟩
    rfl
  · rw [if_neg hxy]

theorem getNode_append_lt (l : DLL) (o : Option DLLNode) (y : Nat)
    (h : y < l.mem.length) :
    getNode { l with mem := l.mem ++ [o] } y = getNode l y := by
  unfold getNode
  dsimp only
  rw [getD_append_lt_gen _ _ _ _ h]

theorem getNode_append_at (l : DLL) (nd : DLLNode) :
    getNode { l with mem := l.mem ++ [some nd] } l.mem.length = nd := by
  unfold getNode
  dsimp only
  rw [getD_append_len_gen]
  rfl

theorem snapshot_some {l : DLL} {h : Nat} (hh : l.head = some h) :
    snapshot l = (traverseAddrs l h l.size).map fun a => (getNode l a).song_id := by
  unfold snapshot
  rw [hh]

theorem snapshot_none {l : DLL} (hh : l.head = none) : snapshot l = [] := by
  unfold snapshot
  rw [hh]

theorem traverse_getD (l : DLL) (x n k : Nat) (hk : k < n) :
    (traverseAddrs l x n).getD k 0 = nthNext l x k := by
  unfold traverseAddrs
  rw [List.getD_eq_getElem?_getD, List.getElem?_map]
  simp [List.getElem?_range hk]

/-- Unpacking the well-formedness check in the nonempty case: a positive
    size, live distinct ring addresses, forward links following the ring, and
    `tail` as the last ring address. -/
theorem wellFormedB_elim {l : DLL} {h t c : Nat} (hh : l.head = some h)
    (ht : l.tail = some t) (hc : l.current = some c) (hwf : wellFormedB l = true) :
    0 < l.size ∧
      (∀ k, k < l.size → isLive l (nthNext l h k) = true) ∧
      (∀ k1 k2, k1 < l.size → k2 < l.size → k1 ≠ k2 →
        nthNext l h k1 ≠ nthNext l h k2) ∧
      t = nthNext l h (l.size - 1) := by
  unfold wellFormedB at hwf
  rw [hh, ht, hc] at hwf
  simp only [Bool.and_eq_true, List.all_eq_true, decide_eq_true_eq, beq_iff_eq] at hwf
  obtain ⟨⟨⟨⟨⟨hpos, hlive⟩, hnodup⟩, _hlink⟩, htl⟩, _hcur⟩ := hwf
  refine ⟨hpos, ?_, ?_, ?_⟩
  · intro k hk
    exact hlive (nthNext l h k)
      (List.mem_map.mpr ⟨k, List.mem_range.mpr hk, rfl⟩)
  · intro k1 k2 hk1 hk2 hne he
    have hlen : (traverseAddrs l h l.size).length = l.size := by
      simp [traverseAddrs]
    have h1 : (traverseAddrs l h l.size).get ⟨k1, by omega⟩ = nthNext l h k1 := by
      rw [← List.getD_eq_get _ 0, traverse_getD l h l.size k1 hk1]
    have h2 : (traverseAddrs l h l.size).get ⟨k2, by omega⟩ = nthNext l h k2 := by
      rw [← List.getD_eq_get _ 0, traverse_getD l h l.size k2 hk2]
    have := (List.Nodup.get_inj_iff hnodup).mp (h1.trans (he.trans h2.symm))
    simp at this
    omega
  · rw [htl, traverse_getD l h l.size (l.size - 1) (by omega)]

theorem getNode_eq_of_mem {l1 l2 : DLL} (h : l1.mem = l2.mem) (a : Nat) :
    getNode l1 a = getNode l2 a := by
  unfold getNode
  rw [h]

theorem gnext_eq_of_mem {l1 l2 : DLL} (h : l1.mem = l2.mem) (a : Nat) :
    gnext l1 a = gnext l2 a := by
  unfold gnext
  rw [getNode_eq_of_mem h]

theorem nthNext_eq_of_mem {l1 l2 : DLL} (h : l1.mem = l2.mem) (x : Nat) :
    ∀ k, nthNext l1 x k = nthNext l2 x k
  | 0 => rfl
  | k + 1 => by
      show gnext l1 (nthNext l1 x k) = gnext l2 (nthNext l2 x k)
      rw [nthNext_eq_of_mem h x k, gnext_eq_of_mem h]

/-- The snapshot reads only `mem`, `head` and `size`. -/
theorem snapshot_congr {l1 l2 : DLL} (hm : l1.mem = l2.mem)
    (hh : l1.head = l2.head) (hs : l1.size = l2.size) :
    snapshot l1 = snapshot l2 := by
  cases hh2 : l2.head with
  | none => rw [snapshot_none (hh.trans hh2), snapshot_none hh2]
  | some h =>
      rw [snapshot_some (hh.trans hh2), snapshot_some hh2, hs]
      unfold traverseAddrs
      calc ((List.range l2.size).map (nthNext l1 h)).map
            (fun a => (getNode l1 a).song_id)
          = ((List.range l2.size).map (nthNext l2 h)).map
            (fun a => (getNode l1 a).song_id) := by
            rw [List.map_congr_left fun k _ => nthNext_eq_of_mem hm h k]
        _ = ((List.range l2.size).map (nthNext l2 h)).map
            (fun a => (getNode l2 a).song_id) :=
            List.map_congr_left fun a _ => by rw [getNode_eq_of_mem hm]

/-- Appending a fresh node and splicing it after `tail` extends the snapshot
    by exactly the new song id, for every well-formed queue. -/
theorem snapshot_dll_insert_end (l : DLL) (id : Int) (hwf : wellFormedB l = true) :
    snapshot (dll_insert_end l id).2 = snapshot l ++ [id] ∧
      (dll_insert_end l id).2.size = l.size + 1 := by
  cases hh : l.head with
  | none =>
      cases ht : l.tail with
      | some t =>
          exfalso
          unfold wellFormedB at hwf
          rw [hh, ht] at hwf
          cases hc : l.current <;> rw [hc] at hwf <;> simp at hwf
      | none =>
          cases hc : l.current with
          | some c =>
              exfalso
              unfold wellFormedB at hwf
              rw [hh, ht, hc] at hwf
              simp at hwf
          | none =>
              have hsz : l.size = 0 := by
                unfold wellFormedB at hwf
                rw [hh, ht, hc] at hwf
                simpa using hwf
              have hexp : (dll_insert_end l id).2 =
                  { l with
                      mem := l.mem ++ [some ⟨id, l.mem.length, l.mem.length⟩]
                      head := some l.mem.length
                      tail := some l.mem.length
                      current := some l.mem.length
                      size := l.size + 1 } := by
                simp only [dll_insert_end, hh]
              refine ⟨?_, by rw [hexp]⟩
              rw [hexp, snapshot_none hh, snapshot_some (l := _) (h := l.mem.length) rfl]
              simp [hsz, traverseAddrs, List.range_succ, nthNext, getNode,
                getD_append_len_gen]
  | some h =>
      cases ht : l.tail with
      | none =>
          exfalso
          unfold wellFormedB at hwf
          rw [hh, ht] at hwf
          cases hc : l.current <;> rw [hc] at hwf <;> simp at hwf
      | some t =>
          cases hc : l.current with
          | none =>
              exfalso
              unfold wellFormedB at hwf
              rw [hh, ht, hc] at hwf
              simp at hwf
          | some c =>
              obtain ⟨hpos, hlive, hinj, htt⟩ := wellFormedB_elim hh ht hc hwf
              have hlen : ∀ k, k < l.size → nthNext l h k < l.mem.length :=
                fun k hk => isLive_lt (hlive k hk)
              have hexp : (dll_insert_end l id).2 =
                  { setPrev (setNext { l with mem := l.mem ++ [some ⟨id, h, t⟩] }
                        t l.mem.length) h l.mem.length with
                      tail := some l.mem.length
                      size := l.size + 1 } := by
                simp only [dll_insert_end, hh, ht, Option.getD_some]
              have htmem : t < l.mem.length := by
                rw [htt]
                exact hlen _ (by omega)
              have hgf : ∀ b, b < l.mem.length → b ≠ t →
                  gnext (dll_insert_end l id).2 b = gnext l b := by
                intro b hb hbt
                rw [hexp]
                show gnext (setPrev (setNext { l with mem := l.mem ++ [some ⟨id, h, t⟩] }
                    t l.mem.length) h l.mem.length) b = gnext l b
                rw [gnext_setPrev, gnext_setNext,
                  if_neg (fun hcon => hbt hcon.1.symm)]
                unfold gnext
                rw [getNode_append_lt l _ b hb]
              have hS1 : ∀ k, k < l.size →
                  nthNext (dll_insert_end l id).2 h k = nthNext l h k := by
                intro k
                induction k with
                | zero => intro _; rfl
                | succ k ih =>
                    intro hk
                    have hb := ih (by omega)
                    show gnext (dll_insert_end l id).2 (nthNext (dll_insert_end l id).2 h k)
                        = gnext l (nthNext l h k)
                    rw [hb]
                    refine hgf (nthNext l h k) (hlen k (by omega)) ?_
                    intro hbt
                    exact hinj k (l.size - 1) (by omega) (by omega) (by omega)
                      (hbt.trans htt)
              have hS2 : nthNext (dll_insert_end l id).2 h l.size = l.mem.length := by
                obtain ⟨n, hn⟩ : ∃ n, l.size = n + 1 := ⟨l.size - 1, by omega⟩
                rw [hn]
                show gnext (dll_insert_end l id).2 (nthNext (dll_insert_end l id).2 h n) = _
                rw [hS1 n (by omega)]
                have hnt : nthNext l h n = t := by
                  rw [htt]
                  congr 1
                  omega
                rw [hnt, hexp]
                show gnext (setPrev (setNext { l with mem := l.mem ++ [some ⟨id, h, t⟩] }
                    t l.mem.length) h l.mem.length) t = l.mem.length
                rw [gnext_setPrev, gnext_setNext,
                  if_pos ⟨rfl, by simp only [List.length_append, List.length_singleton]; omega⟩]
              have hsong : ∀ b, b < l.mem.length →
                  (getNode (dll_insert_end l id).2 b).song_id = (getNode l b).song_id := by
                intro b hb
                rw [hexp]
                show (getNode (setPrev (setNext { l with mem := l.mem ++ [some ⟨id, h, t⟩] }
                    t l.mem.length) h l.mem.length) b).song_id = (getNode l b).song_id
                rw [song_setPrev, song_setNext, getNode_append_lt l _ b hb]
              have hsonga : (getNode (dll_insert_end l id).2 l.mem.length).song_id = id := by
                rw [hexp]
                show (getNode (setPrev (setNext { l with mem := l.mem ++ [some ⟨id, h, t⟩] }
                    t l.mem.length) h l.mem.length) l.mem.length).song_id = id
                rw [song_setPrev, song_setNext, getNode_append_at]
              have hfh : (dll_insert_end l id).2.head = some h := by
                rw [hexp]
                exact hh
              have hfs : (dll_insert_end l id).2.size = l.size + 1 := by rw [hexp]
              refine ⟨?_, hfs⟩
              rw [snapshot_some hfh, snapshot_some hh, hfs]
              unfold traverseAddrs
              rw [List.range_succ, List.map_append, List.map_append]
              congr 1
              · rw [List.map_map, List.map_map]
                refine List.map_congr_left ?_
                intro k hk
                have hk' : k < l.size := List.mem_range.mp hk
                show (getNode (dll_insert_end l id).2
                    (nthNext (dll_insert_end l id).2 h k)).song_id
                    = (getNode l (nthNext l h k)).song_id
                rw [hS1 k hk']
                exact hsong (nthNext l h k) (hlen k hk')
              · show ((List.map (nthNext (dll_insert_end l id).2 h) [l.size]).map
                    fun a => (getNode (dll_insert_end l id).2 a).song_id) = [id]
                simp only [List.map_cons, List.map_nil]
                rw [hS2, hsonga]

/-! ## Small helpers for the claim theorems -/

theorem stack_pop_snd (s : List Operation) : (stack_pop s).2 = s.tail := by
  cases s <;> rfl

theorem snapshot_set_current (l : DLL) (v : Option Nat) :
    snapshot { l with current := v } = snapshot l :=
  snapshot_congr rfl rfl rfl

/-! ## Claims -/

/-- C1: after `add_song(1, "a", "b", 0, 0)` on a fresh manager, one `undo()`
    does restore `queue_snapshot`, `queue_size` and `current_song` to their
    pre-add values — but the redo stack is left empty, not holding the undone
    ADD operation: the nested `manager_remove_song` inside `manager_undo`
    clears the redo stack immediately after `manager_undo` pushed the ADD
    record onto it. This contradicts the claim (and spec scenario 3). -/
theorem c1_undo_add_leaves_redo_empty :
    snapshot mgrOne.queue = [1] ∧ mgrOne.queue.size = 1 ∧
      (manager_undo mgrOne).1 = true ∧
      snapshot (manager_undo mgrOne).2.queue = snapshot (managerCreate 16).queue ∧
      (manager_undo mgrOne).2.queue.size = (managerCreate 16).queue.size ∧
      manager_get_current_song (manager_undo mgrOne).2
        = manager_get_current_song (managerCreate 16) ∧
      (manager_undo mgrOne).2.redo_stack = [] := by decide

/-- C2: `manager_redo` pops the redo stack and returns, re-executing nothing
    (the C body is only a placeholder comment). On `[1,2,3]` after one undo
    the redo stack is already empty (see C1), so `redo()` returns false and
    the snapshot stays `[1,2]`; even with an `ADD 3` record placed on the
    redo stack by hand, `redo()` returns true, pops it, and leaves the queue
    at `[1,2]` instead of restoring `[1,2,3]`. -/
theorem c2_redo_does_not_reexecute :
    snapshot mgrThree.queue = [1, 2, 3] ∧
      snapshot mgrThreeU.queue = [1, 2] ∧
      mgrThreeU.redo_stack = [] ∧
      (manager_redo mgrThreeU).1 = false ∧
      snapshot (manager_redo mgrThreeU).2.queue = [1, 2] ∧
      (manager_redo mgrThreeUR).1 = true ∧
      (manager_redo mgrThreeUR).2.redo_stack = [] ∧
      snapshot (manager_redo mgrThreeUR).2.queue = [1, 2] ∧
      (manager_redo mgrThreeUR).2.undo_stack = mgrThreeUR.undo_stack := by decide

/-- C3 counterexample: with a full capacity-1 heap, `add_song(2, …)` lets the
    heap insert fail (the popularity index does not change), yet still pushes
    an ADD record and returns true — against the claim that a mutator pushes
    nothing when the underlying heap edit failed. -/
theorem c3_counterexample :
    (heap_update_priority mgrCapOne.recommendations 2 0).1 = false ∧
      (manager_add_song mgrCapOne 2 [97] [98] 0 0).1 = true ∧
      (manager_add_song mgrCapOne 2 [97] [98] 0 0).2.recommendations
        = mgrCapOne.recommendations ∧
      (manager_add_song mgrCapOne 2 [97] [98] 0 0).2.undo_stack
        = ⟨.add, 2, 1, 0⟩ :: mgrCapOne.undo_stack := by decide

/-- C3 (amended): every mutator that returns true pushes exactly one
    Operation onto the undo stack and leaves the redo stack empty; every
    mutator that returns false leaves the whole manager unchanged; the
    read-only operations write nothing. (The original claim's clause that a
    mutator pushes nothing when the underlying heap edit failed is refuted by
    `c3_counterexample`: `add_song` ignores the heap result.) -/
theorem c3_history_recording (m : Manager) (song_id likes plays limit : Int)
    (title artist q : List Nat) :
    ((manager_add_song m song_id title artist likes plays).1 = true ∧
      (∃ op, (manager_add_song m song_id title artist likes plays).2.undo_stack
          = op :: m.undo_stack) ∧
      (manager_add_song m song_id title artist likes plays).2.redo_stack = []) ∧
    (((manager_remove_song m song_id).1 = true →
        (∃ op, (manager_remove_song m song_id).2.undo_stack = op :: m.undo_stack) ∧
          (manager_remove_song m song_id).2.redo_stack = []) ∧
      ((manager_remove_song m song_id).1 = false →
        (manager_remove_song m song_id).2 = m)) ∧
    (((manager_skip_next m).1 = true →
        (∃ op, (manager_skip_next m).2.undo_stack = op :: m.undo_stack) ∧
          (manager_skip_next m).2.redo_stack = []) ∧
      ((manager_skip_next m).1 = false → (manager_skip_next m).2 = m)) ∧
    (((manager_skip_prev m).1 = true →
        (∃ op, (manager_skip_prev m).2.undo_stack = op :: m.undo_stack) ∧
          (manager_skip_prev m).2.redo_stack = []) ∧
      ((manager_skip_prev m).1 = false → (manager_skip_prev m).2 = m)) ∧
    (((manager_move_up m song_id).1 = true →
        (∃ op, (manager_move_up m song_id).2.undo_stack = op :: m.undo_stack) ∧
          (manager_move_up m song_id).2.redo_stack = []) ∧
      ((manager_move_up m song_id).1 = false → (manager_move_up m song_id).2 = m)) ∧
    (((manager_move_down m song_id).1 = true →
        (∃ op, (manager_move_down m song_id).2.undo_stack = op :: m.undo_stack) ∧
          (manager_move_down m song_id).2.redo_stack = []) ∧
      ((manager_move_down m song_id).1 = false →
        (manager_move_down m song_id).2 = m)) ∧
    (((manager_update_priority m song_id likes plays).1 = true →
        (∃ op, (manager_update_priority m song_id likes plays).2.undo_stack
            = op :: m.undo_stack) ∧
          (manager_update_priority m song_id likes plays).2.redo_stack = []) ∧
      ((manager_update_priority m song_id likes plays).1 = false →
        (manager_update_priority m song_id likes plays).2 = m)) ∧
    (managerGetCurrentSongS m).2 = m ∧
    (managerQueueSizeS m).2 = m ∧
    (managerQueueSnapshotS m).2 = m ∧
    (managerSearchSongsS m q).2 = m ∧
    (managerSearchArtistsS m q).2 = m ∧
    (managerGetRecommendationsS m limit).2 = m := by
  refine ⟨⟨rfl, ⟨_, rfl⟩, rfl⟩, ?_, ?_, ?_, ?_, ?_, ?_, rfl, rfl, rfl, rfl, rfl, rfl⟩
  · cases hf : dll_find_by_id m.queue song_id with
    | none => exact ⟨fun hcon => by simp [manager_remove_song, hf] at hcon,
        fun _ => by simp [manager_remove_song, hf]⟩
    | some a =>
        refine ⟨fun _ => ⟨?_, by simp [manager_remove_song, hf]⟩,
          fun hcon => by simp [manager_remove_song, hf] at hcon⟩
        simp only [manager_remove_song, hf]
        exact ⟨_, rfl⟩
  · cases hc : m.queue.current with
    | none => exact ⟨fun hcon => by simp [manager_skip_next, hc] at hcon,
        fun _ => by simp [manager_skip_next, hc]⟩
    | some c =>
        refine ⟨fun _ => ⟨?_, by simp [manager_skip_next, hc]⟩,
          fun hcon => by simp [manager_skip_next, hc] at hcon⟩
        simp only [manager_skip_next, hc]
        exact ⟨_, rfl⟩
  · cases hc : m.queue.current with
    | none => exact ⟨fun hcon => by simp [manager_skip_prev, hc] at hcon,
        fun _ => by simp [manager_skip_prev, hc]⟩
    | some c =>
        refine ⟨fun _ => ⟨?_, by simp [manager_skip_prev, hc]⟩,
          fun hcon => by simp [manager_skip_prev, hc] at hcon⟩
        simp only [manager_skip_prev, hc]
        exact ⟨_, rfl⟩
  · cases hf : dll_find_by_id m.queue song_id with
    | none => exact ⟨fun hcon => by simp [manager_move_up, hf] at hcon,
        fun _ => by simp [manager_move_up, hf]⟩
    | some a =>
        by_cases hr : (dll_move_up m.queue a).1 = true
        · refine ⟨fun _ => ⟨?_, by simp [manager_move_up, hf, hr]⟩,
            fun hcon => by simp [manager_move_up, hf, hr] at hcon⟩
          simp only [manager_move_up, hf, hr, if_pos]
          exact ⟨_, rfl⟩
        · exact ⟨fun hcon => by simp [manager_move_up, hf, hr] at hcon,
            fun _ => by simp [manager_move_up, hf, hr]⟩
  · cases hf : dll_find_by_id m.queue song_id with
    | none => exact ⟨fun hcon => by simp [manager_move_down, hf] at hcon,
        fun _ => by simp [manager_move_down, hf]⟩
    | some a =>
        by_cases hr : (dll_move_down m.queue a).1 = true
        · refine ⟨fun _ => ⟨?_, by simp [manager_move_down, hf, hr]⟩,
            fun hcon => by simp [manager_move_down, hf, hr] at hcon⟩
          simp only [manager_move_down, hf, hr, if_pos]
          exact ⟨_, rfl⟩
        · exact ⟨fun hcon => by simp [manager_move_down, hf, hr] at hcon,
            fun _ => by simp [manager_move_down, hf, hr]⟩
  · by_cases hr : (heap_update_priority m.recommendations song_id (likes * 2 + plays)).1 = true
    · refine ⟨fun _ => ⟨?_, by simp [manager_update_priority, hr]⟩,
        fun hcon => by simp [manager_update_priority, hr] at hcon⟩
      simp only [manager_update_priority, hr, if_pos]
      exact ⟨_, rfl⟩
    · refine ⟨fun hcon => by simp [manager_update_priority, hr] at hcon, fun _ => ?_⟩
      have hunch : (heap_update_priority m.recommendations song_id
          (likes * 2 + plays)).2 = m.recommendations := by
        unfold heap_update_priority at hr ⊢
        cases hfind : findSongIdx m.recommendations.nodes song_id with
        | none =>
            simp only [hfind] at hr ⊢
            unfold insertHeap at hr ⊢
            by_cases hfull : m.recommendations.nodes.length ≥ m.recommendations.capacity
            · rw [if_pos hfull]
            · rw [if_neg hfull] at hr
              simp at hr
        | some i =>
            simp only [hfind] at hr
            split_ifs at hr <;> simp at hr
      simp [manager_update_priority, hr, hunch]

/-- Witness for C3: the remove-song clause of `c3_history_recording` at the
    concrete two-song manager, with the hypothesis discharged by evaluation. -/
theorem c3_history_recording_witness :
    (∃ op, (manager_remove_song mgrTwo 2).2.undo_stack = op :: mgrTwo.undo_stack) ∧
      (manager_remove_song mgrTwo 2).2.redo_stack = [] :=
  (c3_history_recording mgrTwo 2 0 0 5 [] [] []).2.1.1 (by decide)

/-- C4: on the two-node queue `[1, 2]`, `dll_move_up` on the node holding 2
    returns true but corrupts the ring: the head becomes the moved node
    (address 1), yet following `next` from the head `size` (= 2) times lands
    on address 0, not back at the head, and `head.next.prev` no longer equals
    `head` — invariant I1 is violated, contradicting the claim that it holds
    after every `move_up` with `size ≥ 2`. (With aliasing `p_prev == node`
    and `n_next == prev`, the six relink writes leave node 0 self-linked.) -/
theorem c4_move_up_size_two_breaks_ring :
    wellFormedB dllTwo = true ∧
      snapshot dllTwo = [1, 2] ∧
      (dll_move_up dllTwo 1).1 = true ∧
      (dll_move_up dllTwo 1).2.head = some 1 ∧
      (dll_move_up dllTwo 1).2.size = 2 ∧
      nthNext (dll_move_up dllTwo 1).2 1 2 = 0 ∧
      (getNode (dll_move_up dllTwo 1).2 (gnext (dll_move_up dllTwo 1).2 1)).prev = 0 ∧
      wellFormedB (dll_move_up dllTwo 1).2 = false := by decide

/-- C5 counterexample: on a full capacity-1 non-null heap, updating an
    absent song id returns false — the claim that `heap_update_priority`
    returns false only for a null heap (in particular true on a full heap)
    is wrong. -/
theorem c5_counterexample :
    heap_update_priority heapFull 2 3 = (false, heapFull) := by decide

/-- C5 (amended): `heap_update_priority` returns true iff the song id is
    present or the heap has room (so it returns false on a full heap with an
    absent id, besides the null-heap case the model cannot represent); when
    the id is absent it behaves exactly as `insertHeap`; when present at `i`
    it writes the new priority in place — sifting up on a strict increase and
    down otherwise — restoring the heap property and keeping the size. -/
theorem c5_update_priority_amended (h : MaxHeap) (id p : Int) :
    ((heap_update_priority h id p).1 = true ↔
      findSongIdx h.nodes id ≠ none ∨ h.nodes.length < h.capacity) ∧
    (findSongIdx h.nodes id = none →
      heap_update_priority h id p = insertHeap h id p) ∧
    (∀ i, findSongIdx h.nodes id = some i → heapProp h.nodes →
      (heap_update_priority h id p).1 = true ∧
        heapProp (heap_update_priority h id p).2.nodes ∧
        (heap_update_priority h id p).2.nodes.length = h.nodes.length ∧
        (⟨id, p⟩ : HeapNode) ∈ (heap_update_priority h id p).2.nodes ∧
        (heap_update_priority h id p).2.nodes =
          (if pgetL h.nodes i < p then heapifyUp (h.nodes.set i ⟨id, p⟩) i
           else heapifyDown (h.nodes.set i ⟨id, p⟩) i)) := by
  have habsent : ∀ _hn : findSongIdx h.nodes id = none,
      heap_update_priority h id p = insertHeap h id p := by
    intro hn
    unfold heap_update_priority
    simp only [hn]
  refine ⟨?_, habsent, ?_⟩
  · cases hf : findSongIdx h.nodes id with
    | none =>
        rw [habsent hf]
        unfold insertHeap
        by_cases hfull : h.nodes.length ≥ h.capacity
        · rw [if_pos hfull]
          refine iff_of_false (by simp) ?_
          rintro (hc | hc)
          · exact hc rfl
          · omega
        · rw [if_neg hfull]
          exact iff_of_true rfl (Or.inr (by omega))
    | some i =>
        refine iff_of_true ?_ (Or.inl (by simp [hf]))
        unfold heap_update_priority
        simp only [hf]
        split_ifs <;> rfl
  · intro i hf hp
    obtain ⟨hi, hsid⟩ := findSongIdx_some h.nodes id i hf
    have hentry : (⟨(hget h.nodes i).song_id, p⟩ : HeapNode) = ⟨id, p⟩ := by rw [hsid]
    have hred : heap_update_priority h id p =
        (if pgetL h.nodes i < p
         then (true, { h with nodes := heapifyUp (h.nodes.set i ⟨id, p⟩) i })
         else (true, { h with nodes := heapifyDown (h.nodes.set i ⟨id, p⟩) i })) := by
      unfold heap_update_priority
      simp only [hf, hentry]
    have hmemset : (⟨id, p⟩ : HeapNode) ∈ h.nodes.set i ⟨id, p⟩ :=
      (mem_iff_hget _ _).mpr ⟨i, by rw [List.length_set]; exact hi,
        by rw [hget_set, if_pos ⟨rfl, hi⟩]⟩
    by_cases hlt : pgetL h.nodes i < p
    · have hspec := heapifyUp_spec (set_inc_ustate hp hi ⟨id, p⟩ (le_of_lt hlt))
      rw [hred, if_pos hlt]
      refine ⟨rfl, hspec.1, ?_, ?_, by rw [if_pos hlt]⟩
      · show (heapifyUp (h.nodes.set i ⟨id, p⟩) i).length = h.nodes.length
        rw [hspec.2.1, List.length_set]
      · exact (hspec.2.2 _).mpr hmemset
    · have hspec := heapifyDown_spec (set_dec_dstate hp hi ⟨id, p⟩ (not_lt.mp hlt))
      rw [hred, if_neg hlt]
      refine ⟨rfl, hspec.1, ?_, ?_, by rw [if_neg hlt]⟩
      · show (heapifyDown (h.nodes.set i ⟨id, p⟩) i).length = h.nodes.length
        rw [hspec.2.1, List.length_set]
      · exact (hspec.2.2 _).mpr hmemset

/-- Witness for C5: the present-id clause of `c5_update_priority_amended` on
    a concrete two-entry heap, raising song 2 to priority 10. -/
theorem c5_update_priority_witness :
    findSongIdx [⟨1, 5⟩, ⟨2, 3⟩] 2 = some 1 ∧ heapProp [⟨1, 5⟩, ⟨2, 3⟩] ∧
      ((heap_update_priority ⟨[⟨1, 5⟩, ⟨2, 3⟩], 3⟩ 2 10).1 = true ∧
        heapProp (heap_update_priority ⟨[⟨1, 5⟩, ⟨2, 3⟩], 3⟩ 2 10).2.nodes ∧
        (heap_update_priority ⟨[⟨1, 5⟩, ⟨2, 3⟩], 3⟩ 2 10).2.nodes.length
          = ([⟨1, 5⟩, ⟨2, 3⟩] : List HeapNode).length ∧
        (⟨2, 10⟩ : HeapNode) ∈ (heap_update_priority ⟨[⟨1, 5⟩, ⟨2, 3⟩], 3⟩ 2 10).2.nodes ∧
        (heap_update_priority ⟨[⟨1, 5⟩, ⟨2, 3⟩], 3⟩ 2 10).2.nodes =
          (if pgetL [⟨1, 5⟩, ⟨2, 3⟩] 1 < 10
           then heapifyUp (([⟨1, 5⟩, ⟨2, 3⟩] : List HeapNode).set 1 ⟨2, 10⟩) 1
           else heapifyDown (([⟨1, 5⟩, ⟨2, 3⟩] : List HeapNode).set 1 ⟨2, 10⟩) 1)) :=
  ⟨by decide, by decide,
    (c5_update_priority_amended ⟨[⟨1, 5⟩, ⟨2, 3⟩], 3⟩ 2 10).2.2 1 (by decide) (by decide)⟩

/-- C6: whenever the limit is at least the heap's size (and the live entries
    fit the capacity, as every reachable heap does), the recommendation list
    has exactly one entry per live heap entry and the extracted pairs carry
    non-increasing priorities; the returned ids are the song ids of those
    pairs in extraction order. -/
theorem c6_recommendations_sorted (m : Manager) (limit : Int)
    (hcap : m.recommendations.nodes.length ≤ m.recommendations.capacity)
    (hlim : (m.recommendations.nodes.length : Int) ≤ limit) :
    (manager_get_recommendations m limit).length = m.recommendations.nodes.length ∧
      List.Pairwise (fun a b : HeapNode => b.priority ≤ a.priority) (recsPairs m limit) ∧
      manager_get_recommendations m limit = (recsPairs m limit).map fun n => n.song_id := by
  obtain ⟨hlen, hp⟩ := buildTempHeap_spec m hcap
  refine ⟨?_, ?_, rfl⟩
  · unfold manager_get_recommendations recsPairs
    by_cases hz : m.recommendations.nodes.length = 0
    · rw [if_pos hz]
      simp [hz]
    · rw [if_neg hz]
      rw [List.length_map,
        extractLoopF_length _ _ _ _ le_rfl (by rw [hlen]; push_cast; omega), hlen]
  · unfold recsPairs
    by_cases hz : m.recommendations.nodes.length = 0
    · rw [if_pos hz]
      exact List.Pairwise.nil
    · rw [if_neg hz]
      exact extractLoopF_sorted _ _ _ _ hp

/-- Witness for C6: the conclusion instantiated at the concrete two-entry
    heap manager with limit 5. -/
theorem c6_recommendations_sorted_witness :
    (manager_get_recommendations mgrHeapTwo 5).length
        = mgrHeapTwo.recommendations.nodes.length ∧
      List.Pairwise (fun a b : HeapNode => b.priority ≤ a.priority)
        (recsPairs mgrHeapTwo 5) ∧
      manager_get_recommendations mgrHeapTwo 5
        = (recsPairs mgrHeapTwo 5).map fun n => n.song_id :=
  c6_recommendations_sorted mgrHeapTwo 5 (by decide) (by decide)

/-- C7: `manager_get_recommendations` threads the manager state through
    unchanged — the extraction happens on the clone built by
    `buildTempHeap`, so the live heap's entries (hence its size) are intact
    after the call, and stay intact under any sequence of consecutive calls. -/
theorem c7_recommendations_frame (m : Manager) (limit : Int) (limits : List Int) :
    (managerGetRecommendationsS m limit).2 = m ∧
      (managerGetRecommendationsS m limit).2.recommendations.nodes
        = m.recommendations.nodes ∧
      (managerGetRecommendationsS m limit).2.recommendations.nodes.length
        = m.recommendations.nodes.length ∧
      List.foldl (fun mm lim => (managerGetRecommendationsS mm lim).2) m limits = m := by
  refine ⟨rfl, rfl, rfl, ?_⟩
  induction limits with
  | nil => rfl
  | cons lim rest ih => exact ih

/-- C8 counterexample: after `add_song(7, "Señorita", "Shawn", 0, 0)` the
    folded key is "seorita", and `search_songs("seo")` does NOT include 7 —
    the trie search returns only the terminal list of the node the prefix
    reaches, and no insertion ended at "seo". The claim's assertion that
    `search_songs("seo")` includes 7 is false on the code. -/
theorem c8_counterexample : (7 : Int) ∉ manager_search_songs mgrSen seoBytes := by
  decide

/-- C8 (amended): if the case-folded alphabetic-filtered forms of the title
    and the query are equal, the inserted id is found (non-letters are
    skipped without consuming a trie edge); concretely for
    `add_song(7, "Señorita", …)`, both `search_songs("se")` and
    `search_songs("seo")` return the empty list, while the full folded key
    `search_songs("seorita")` returns `[7]`. -/
theorem c8_search_fold (t : TrieNode) (key p : List Nat) (id : Int)
    (hf : foldKey key = foldKey p) :
    id ∈ trie_search_pfx (trie_insert t key id) p ∧
      manager_search_songs mgrSen seBytes = [] ∧
      manager_search_songs mgrSen seoBytes = [] ∧
      manager_search_songs mgrSen seoritaBytes = [7] :=
  ⟨trie_search_after_insert t key p id hf, by decide, by decide, by decide⟩

/-- Witness for C8: the folded forms of "Señorita" and "seorita" coincide,
    and searching the full folded key after inserting the title finds 7. -/
theorem c8_search_fold_witness :
    foldKey senoritaBytes = foldKey seoritaBytes ∧
      (7 : Int) ∈ trie_search_pfx (trie_insert trieEmpty senoritaBytes 7) seoritaBytes :=
  ⟨by decide,
    (c8_search_fold trieEmpty senoritaBytes seoritaBytes 7 (by decide)).1⟩

/-- C9: when `undo()` runs with a REMOVE record on top of a well-formed
    queue, it re-appends the removed song id at the tail (the snapshot grows
    by exactly that id at the end, ignoring the recorded position) and then
    pops one further record from the undo stack even though the bare
    `dll_insert_end` recorded nothing — so whenever a record lay beneath the
    REMOVE, that older history entry is discarded. -/
theorem c9_undo_remove_discards_history (m : Manager) (op : Operation)
    (rest : List Operation) (hundo : m.undo_stack = op :: rest)
    (htype : op.type = OpType.remove) (hwf : wellFormedB m.queue = true) :
    (manager_undo m).1 = true ∧
      snapshot (manager_undo m).2.queue = snapshot m.queue ++ [op.song_id] ∧
      (manager_undo m).2.queue.size = m.queue.size + 1 ∧
      (manager_undo m).2.undo_stack = rest.tail ∧
      ∀ r rest0, rest = r :: rest0 → (manager_undo m).2.undo_stack = rest0 := by
  have hred : manager_undo m =
      (true, { m with
          queue := (dll_insert_end m.queue op.song_id).2
          undo_stack := (stack_pop rest).2
          redo_stack := op :: m.redo_stack }) := by
    unfold manager_undo
    simp only [hundo, htype]
  obtain ⟨hsnap, hsize⟩ := snapshot_dll_insert_end m.queue op.song_id hwf
  rw [hred]
  refine ⟨rfl, hsnap, hsize, stack_pop_snd rest, ?_⟩
  intro r rest0 hr
  rw [show ({ m with
      queue := (dll_insert_end m.queue op.song_id).2
      undo_stack := (stack_pop rest).2
      redo_stack := op :: m.redo_stack } : Manager).undo_stack
    = (stack_pop rest).2 from rfl, stack_pop_snd rest, hr]
  rfl

/-- Witness for C9: applied to the concrete manager built by
    `add 1; add 2; remove 2`, whose undo stack is `[REMOVE 2, ADD 2, ADD 1]`:
    the undo restores `[1, 2]` and silently drops the `ADD 2` record. -/
theorem c9_undo_remove_discards_history_witness :
    (manager_undo mgrRem).1 = true ∧
      snapshot (manager_undo mgrRem).2.queue = snapshot mgrRem.queue ++ [2] ∧
      (manager_undo mgrRem).2.queue.size = mgrRem.queue.size + 1 ∧
      (manager_undo mgrRem).2.undo_stack
        = ([⟨.add, 2, 1, 0⟩, ⟨.add, 1, 0, 0⟩] : List Operation).tail ∧
      ∀ r rest0, ([⟨.add, 2, 1, 0⟩, ⟨.add, 1, 0, 0⟩] : List Operation) = r :: rest0 →
        (manager_undo mgrRem).2.undo_stack = rest0 :=
  c9_undo_remove_discards_history mgrRem ⟨.remove, 2, 1, 0⟩
    [⟨.add, 2, 1, 0⟩, ⟨.add, 1, 0, 0⟩] (by decide) (by decide) (by decide)

/-- C10: on a well-formed nonempty queue, `skip_next` and `skip_prev` return
    true and change only the cursor and the history stacks: the queue's
    arena (hence the cyclic order of its entries), `head`, `tail`, `size`
    and snapshot, the popularity heap, both tries, and the upcoming buffer
    are unchanged; exactly one SKIP record is pushed and the redo stack is
    cleared. -/
theorem c10_skip_frame (m : Manager) (hwf : wellFormedB m.queue = true)
    (hpos : 0 < m.queue.size) :
    ((manager_skip_next m).1 = true ∧
      (manager_skip_next m).2.queue.mem = m.queue.mem ∧
      (manager_skip_next m).2.queue.head = m.queue.head ∧
      (manager_skip_next m).2.queue.tail = m.queue.tail ∧
      (manager_skip_next m).2.queue.size = m.queue.size ∧
      snapshot (manager_skip_next m).2.queue = snapshot m.queue ∧
      (manager_skip_next m).2.recommendations = m.recommendations ∧
      (manager_skip_next m).2.song_trie = m.song_trie ∧
      (manager_skip_next m).2.artist_trie = m.artist_trie ∧
      (manager_skip_next m).2.upcoming = m.upcoming ∧
      (∃ op, (manager_skip_next m).2.undo_stack = op :: m.undo_stack) ∧
      (manager_skip_next m).2.redo_stack = []) ∧
    ((manager_skip_prev m).1 = true ∧
      (manager_skip_prev m).2.queue.mem = m.queue.mem ∧
      (manager_skip_prev m).2.queue.head = m.queue.head ∧
      (manager_skip_prev m).2.queue.tail = m.queue.tail ∧
      (manager_skip_prev m).2.queue.size = m.queue.size ∧
      snapshot (manager_skip_prev m).2.queue = snapshot m.queue ∧
      (manager_skip_prev m).2.recommendations = m.recommendations ∧
      (manager_skip_prev m).2.song_trie = m.song_trie ∧
      (manager_skip_prev m).2.artist_trie = m.artist_trie ∧
      (manager_skip_prev m).2.upcoming = m.upcoming ∧
      (∃ op, (manager_skip_prev m).2.undo_stack = op :: m.undo_stack) ∧
      (manager_skip_prev m).2.redo_stack = []) := by
  cases hc : m.queue.current with
  | none =>
      exfalso
      cases hh : m.queue.head <;> cases ht : m.queue.tail <;>
        (unfold wellFormedB at hwf; rw [hh, ht, hc] at hwf) <;> simp at hwf
      omega
  | some c =>
      have hn : manager_skip_next m =
          (true, { m with
              queue := { m.queue with current := some (getNode m.queue c).next }
              undo_stack := ⟨.skip, (getNode m.queue c).song_id, -1, 0⟩ :: m.undo_stack
              redo_stack := [] }) := by
        unfold manager_skip_next
        simp only [hc]
      have hp : manager_skip_prev m =
          (true, { m with
              queue := { m.queue with current := some (getNode m.queue c).prev }
              undo_stack := ⟨.skip, (getNode m.queue c).song_id, -1, 0⟩ :: m.undo_stack
              redo_stack := [] }) := by
        unfold manager_skip_prev
        simp only [hc]
      rw [hn, hp]
      exact ⟨⟨rfl, rfl, rfl, rfl, rfl, snapshot_set_current m.queue _, rfl, rfl, rfl,
          rfl, ⟨_, rfl⟩, rfl⟩,
        ⟨rfl, rfl, rfl, rfl, rfl, snapshot_set_current m.queue _, rfl, rfl, rfl,
          rfl, ⟨_, rfl⟩, rfl⟩⟩

/-- Witness for C10: instantiated at the concrete three-song manager. -/
theorem c10_skip_frame_witness :
    (manager_skip_next mgrThree).1 = true ∧
      snapshot (manager_skip_next mgrThree).2.queue = snapshot mgrThree.queue ∧
      (manager_skip_prev mgrThree).1 = true ∧
      (manager_skip_prev mgrThree).2.queue.mem = mgrThree.queue.mem := by
  have hmain := c10_skip_frame mgrThree (by decide) (by decide)
  exact ⟨hmain.1.1, hmain.1.2.2.2.2.2.1, hmain.2.1, hmain.2.2.1⟩
